import Mathlib

/-!
Verification of the repro-nest-sdk tracing SDK's Assembler, dispatcher,
transformer and middleware logic, as a shallow embedding in Lean.

The embedding follows the JavaScript/TypeScript sources:
  * `src/index.ts`     — `balanceTraceEvents`, `reorderTraceEvents`,
                         `patchMongooseExecCapture`, `flushQueryFinalizers`,
                         `reproMiddleware`
  * `tracer/runtime.js`— `trace.exit`, `__repro_call` / `invokeWithTrace`,
                         `isMongooseQuery`, `queueQueryFinalizer`
  * `tracer/wrap-plugin.js` — `wrapCall`

JavaScript-specific conventions used throughout:
  * a field that may be `undefined`/`null` is an `Option`;
  * snapshot payloads (`args`, `returnValue`, `error` on assembler-side
    records) are opaque to the assembler and modelled by a flat `JsValue`;
  * span ids are `string | number | null` in TS and are only ever consumed
    after `String(...)` normalisation, so they are modelled as the
    normalised `Option String` (with `some ""` kept distinct because the
    code's truthiness checks distinguish it from a non-empty string).
-/

namespace ReproSdk

/-- Opaque snapshot payload carried by assembler-side trace events.
The assembler never inspects these values; only copies them around. -/
inductive JsValue where
  | nullV : JsValue
  | boolV : Bool → JsValue
  | numV : Int → JsValue
  | strV : String → JsValue
deriving DecidableEq, Repr

/-- `TraceEventRecord` from `src/index.ts` (the middleware's collected
event shape).  `Option` fields model `undefined`. -/
structure TraceEventRecord where
  t : Int
  type : String
  functionType : Option String := none
  fn : Option String := none
  file : Option String := none
  line : Option Int := none
  depth : Option Int := none
  spanId : Option String := none
  parentSpanId : Option String := none
  args : Option JsValue := none
  returnValue : Option JsValue := none
  threw : Option Bool := none
  error : Option JsValue := none
  unawaited : Option Bool := none
deriving DecidableEq, Repr

/-- `String(ev.line ?? '')` from `balanceTraceEvents.makeKey`. -/
def lineKeyString : Option Int → String
  | none => ""
  | some n => toString n

/-- The identity key used by `balanceTraceEvents`:
`[ev.fn || '', ev.file || '', String(ev.line ?? ''), ev.functionType || ''].join('|')`. -/
def makeKey (ev : TraceEventRecord) : String :=
  (ev.fn.getD "") ++ "|" ++ (ev.file.getD "") ++ "|" ++
    lineKeyString ev.line ++ "|" ++ (ev.functionType.getD "")

/-- The inner scan of `balanceTraceEvents`: does the remaining list hold an
`exit` whose identity key matches `key`? -/
def hasMatchingExit (key : String) (rest : List TraceEventRecord) : Bool :=
  rest.any (fun later => later.type = "exit" && makeKey later = key)

/-- The synthetic exit record pushed by `balanceTraceEvents` for an
unmatched `enter` (`src/index.ts` lines 640–655). -/
def synthExit (ev : TraceEventRecord) : TraceEventRecord :=
  { t := ev.t
    type := "exit"
    fn := ev.fn
    file := ev.file
    line := ev.line
    functionType := ev.functionType
    depth := ev.depth.map (fun d => max 0 (d - 1))
    spanId := ev.spanId
    parentSpanId := ev.parentSpanId
    args := ev.args
    returnValue := none
    threw := some false
    error := none
    unawaited := some true }

/-- Main loop of `balanceTraceEvents`.  `seen` is the `seenKeys` set of keys
for which a synthetic exit has already been inserted; the inner scan for a
matching exit runs over the not-yet-processed suffix of the input list,
exactly as the JS loop scans `events[j]` for `j > i`.  Every event that is
not an `enter` (including the defensive non-enter/non-exit case of the JS
loop, whose body is the same push-and-continue) is kept unchanged. -/
def balanceLoop (seen : List String) : List TraceEventRecord → List TraceEventRecord
  | [] => []
  | ev :: rest =>
    if ev.type = "enter" then
      if makeKey ev = "" ∨ seen.contains (makeKey ev) then
        ev :: balanceLoop seen rest
      else if hasMatchingExit (makeKey ev) rest then
        ev :: balanceLoop seen rest
      else
        ev :: synthExit ev :: balanceLoop (makeKey ev :: seen) rest
    else
      ev :: balanceLoop seen rest

/-- `balanceTraceEvents` from `src/index.ts` (lines 607–660). -/
def balanceTraceEvents (events : List TraceEventRecord) : List TraceEventRecord :=
  if events = [] then events else balanceLoop [] events

/-! ## `reorderTraceEvents` (`src/index.ts` lines 662–741)

`normalizeId` stringifies a non-null id; every later consumer tests the
result for JS truthiness (`!spanId`, `node.parentId && …`), under which the
empty string behaves as `null`.  `normSpan` composes both steps. -/

/-- `normalizeId` followed by the truthiness test applied at every use. -/
def normSpan : Option String → Option String
  | none => none
  | some s => if s = "" then none else some s

/-- One entry of the `nodes` map of `reorderTraceEvents`. -/
structure SpanNodeR where
  parentId : Option String
  enter : Option TraceEventRecord
  exit : Option TraceEventRecord
  order : Nat
deriving DecidableEq, Repr

/-- Node state after `ensureNode` creates it at index `idx` and the event is
merged (`order = min(∞, idx)`, first enter kept, exit overwritten). -/
def freshNode (idx : Nat) (ev : TraceEventRecord) : SpanNodeR :=
  { parentId := ev.parentSpanId
    enter := if ev.type = "enter" then some ev else none
    exit := if ev.type = "exit" then some ev else none
    order := idx }

/-- Merging one more event into an existing node: `order` is min-ed,
`parentId` overwritten, `enter` kept if already present (`??`), `exit`
overwritten. -/
def updateNode (idx : Nat) (ev : TraceEventRecord) (n : SpanNodeR) : SpanNodeR :=
  { parentId := ev.parentSpanId
    enter :=
      if ev.type = "enter" then
        match n.enter with
        | some e => some e
        | none => some ev
      else n.enter
    exit := if ev.type = "exit" then some ev else n.exit
    order := min n.order idx }

def hasNodeKey (nodes : List (String × SpanNodeR)) (k : String) : Bool :=
  nodes.any (fun p => p.1 = k)

def lookupNode (nodes : List (String × SpanNodeR)) (k : String) : Option SpanNodeR :=
  (nodes.find? (fun p => p.1 = k)).map (fun p => p.2)

/-- Processing one event of the `events.forEach((ev, idx) => …)` phase.
The association list keeps JS `Map` insertion order. -/
def applyEvent (nodes : List (String × SpanNodeR)) (idx : Nat)
    (ev : TraceEventRecord) : List (String × SpanNodeR) :=
  match normSpan ev.spanId with
  | none => nodes
  | some sid =>
    if hasNodeKey nodes sid then
      nodes.map (fun p => if p.1 = sid then (p.1, updateNode idx ev p.2) else p)
    else
      nodes ++ [(sid, freshNode idx ev)]

def buildNodesAux (nodes : List (String × SpanNodeR)) (idx : Nat) :
    List TraceEventRecord → List (String × SpanNodeR)
  | [] => nodes
  | ev :: rest => buildNodesAux (applyEvent nodes idx ev) (idx + 1) rest

/-- The `nodes` map after the first phase of `reorderTraceEvents`. -/
def buildNodes (events : List TraceEventRecord) : List (String × SpanNodeR) :=
  buildNodesAux [] 0 events

/-- The events pushed to `roots` during phase one (no truthy span id),
with their original indices as orders. -/
def evRootEntries (events : List TraceEventRecord) : List (Nat × TraceEventRecord) :=
  events.enum.filter (fun p => normSpan p.2.spanId = none)

/-- `node.parentId && nodes.has(node.parentId)` decides child vs root. -/
def isRootNode (nodes : List (String × SpanNodeR)) (n : SpanNodeR) : Bool :=
  match normSpan n.parentId with
  | none => true
  | some p => !hasNodeKey nodes p

/-- The children pushed onto the node keyed `pid`, in `Map` iteration
(insertion) order, before sorting. -/
def childrenOf (nodes : List (String × SpanNodeR)) (pid : String) :
    List (String × SpanNodeR) :=
  nodes.filter (fun p =>
    match normSpan p.2.parentId with
    | some q => q = pid && hasNodeKey nodes q
    | none => false)

/-- Stable insertion placing `x` after every element of key `≤ key x`,
matching V8's stable `sort((a, b) => a.order - b.order)`. -/
def insertByOrder (key : α → Nat) (x : α) : List α → List α
  | [] => [x]
  | y :: ys => if key y ≤ key x then y :: insertByOrder key x ys else x :: y :: ys

/-- Stable sort by a numeric key (left-to-right insertion). -/
def sortByOrder (key : α → Nat) (l : List α) : List α :=
  l.foldl (fun acc x => insertByOrder key x acc) []

/-- An entry of the `roots` array: either a span-less event kept at its
original position, or a root span node. -/
inductive RootEntry where
  | plainEv (order : Nat) (ev : TraceEventRecord)
  | spanRoot (order : Nat) (sid : String) (n : SpanNodeR)
deriving DecidableEq, Repr

def rootOrder : RootEntry → Nat
  | .plainEv o _ => o
  | .spanRoot o _ _ => o

/-- The `roots` array before sorting: phase one pushes span-less events,
phase two appends parentless nodes in map order. -/
def rootEntries (events : List TraceEventRecord)
    (nodes : List (String × SpanNodeR)) : List RootEntry :=
  (evRootEntries events).map (fun p => RootEntry.plainEv p.1 p.2) ++
    (nodes.filter (fun p => isRootNode nodes p.2)).map
      (fun p => RootEntry.spanRoot p.2.order p.1 p.2)

/-- `emitNode`: enter (depth rewritten), children sorted by first-emission
order, exit (depth rewritten).  The recursion is fuelled; in the JS
original the traversal terminates because a parent-id cycle can never be
reached from a root, which bounds the recursion depth by the node count
(the fuel passed in by `reorderTraceEvents`). -/
def emitNodeF (nodes : List (String × SpanNodeR)) :
    Nat → String → SpanNodeR → Nat → List TraceEventRecord
  | 0, _, _, _ => []
  | fuel + 1, sid, n, depth =>
    (match n.enter with
     | some e => [{ e with depth := some (Int.ofNat depth) }]
     | none => []) ++
    ((sortByOrder (fun p => p.2.order) (childrenOf nodes sid)).flatMap
      (fun p => emitNodeF nodes fuel p.1 p.2 (depth + 1))) ++
    (match n.exit with
     | some e => [{ e with depth := some (Int.ofNat depth) }]
     | none => [])

def emitRoot (nodes : List (String × SpanNodeR)) (fuel : Nat) :
    RootEntry → List TraceEventRecord
  | .plainEv _ ev => [ev]
  | .spanRoot _ sid n => emitNodeF nodes fuel sid n 1

/-- `reorderTraceEvents` from `src/index.ts` (lines 662–741). -/
def reorderTraceEvents (events : List TraceEventRecord) : List TraceEventRecord :=
  if events = [] then events
  else
    let nodes := buildNodes events
    (sortByOrder rootOrder (rootEntries events nodes)).flatMap
      (emitRoot nodes nodes.length)

/-! ## Specification-side characterisation of balancing

Stated from the observable description: an `enter` is *unmatched* when no
later event in the list is an `exit` with the same identity key
(function name, file, line, function kind); for each key, a single
synthetic exit is inserted immediately after the first unmatched `enter`
carrying that key. -/

/-- The event at index `i` is an `enter` with no matching `exit`
anywhere later in the list (matching = same identity key). -/
def unmatchedEnterAt (events : List TraceEventRecord) (i : Nat) : Bool :=
  match events[i]? with
  | some e => e.type = "enter" && !hasMatchingExit (makeKey e) (events.drop (i + 1))
  | none => false

/-- Identity key of the event at index `i` (dummy key out of range). -/
def keyAt (events : List TraceEventRecord) (i : Nat) : String :=
  match events[i]? with
  | some e => makeKey e
  | none => ""

/-- Index `i` holds the first unmatched `enter` for its identity key. -/
def firstUnmatchedAt (events : List TraceEventRecord) (i : Nat) : Bool :=
  unmatchedEnterAt events i &&
    (List.range i).all
      (fun j => !(unmatchedEnterAt events j && keyAt events j = keyAt events i))

/-- Specification-side balancing: every event is kept in place, and a
synthetic exit is inserted right after each first unmatched `enter` of its
key.  `i` is the absolute index of the head of the remaining suffix. -/
def specBalanceFrom (events : List TraceEventRecord) (i : Nat) :
    List TraceEventRecord → List TraceEventRecord
  | [] => []
  | e :: rest =>
    e :: ((if firstUnmatchedAt events i then [synthExit e] else []) ++
      specBalanceFrom events (i + 1) rest)

/-- Specification-side balancing of a whole list. -/
def specBalance (events : List TraceEventRecord) : List TraceEventRecord :=
  specBalanceFrom events 0 events

/-- A list is balanced when every `enter` is followed, somewhere later in
the list, by an `exit` with the same identity key. -/
def isBalancedList : List TraceEventRecord → Bool
  | [] => true
  | e :: rest =>
    (if e.type = "enter" then hasMatchingExit (makeKey e) rest else true) &&
      isBalancedList rest

/-! ## Runtime dispatcher and span-engine exit path (`tracer/runtime.js`)

The dispatcher (`__repro_call` / `invokeWithTrace`) and the exit path
(`trace.exit`) are modelled as pure functions from the call's outcome to
the list of actions the runtime performs, in program order:
event emissions, `.then`-continuation attachments, query-finalizer
enqueues and un-awaited promise marks.  What is intentionally not
modelled: wall-clock timestamps (`Date.now`), the `args` snapshot carried
through unchanged, the callback-argument wrapping (`wrapArgsWithStore`,
which never emits), debug logging, and the `try { promise.then } catch`
fallback (`.then` of a well-behaved thenable does not throw).  The
`AsyncLocalStorage` stores are threaded explicitly as `TraceCtx` values;
`als.run(store, f)` becomes running the modelled step on a copy. -/

/-- JS value as classified by the tracer runtime; only the properties the
runtime inspects are modelled.  `resultPromise` / `storedResult` are the
`__repro_result_promise` / `__repro_result` fields written by the patched
`exec` (presence of `storedResult` models `hasOwnProperty('__repro_result')`).
`finalizable` models `queueQueryFinalizer` succeeding (its `try` block). -/
inductive RVal where
  | mk
    (thenable : Bool)          -- typeof value.then === 'function'
    (hasExec : Bool)           -- typeof value.exec === 'function'
    (hasModel : Bool)          -- !!value.model
    (ctorQuery : Bool)         -- value.constructor.name === 'Query'
    (markedQuery : Bool)       -- value.__repro_is_query === true
    (markedUnawaited : Bool)   -- value[SYM_UNAWAITED] (markPromiseUnawaited)
    (resultPromise : Option RVal)
    (storedResult : Option RVal)
    (finalizable : Bool)

def RVal.thenable : RVal → Bool | .mk b _ _ _ _ _ _ _ _ => b
def RVal.hasExec : RVal → Bool | .mk _ b _ _ _ _ _ _ _ => b
def RVal.hasModel : RVal → Bool | .mk _ _ b _ _ _ _ _ _ => b
def RVal.ctorQuery : RVal → Bool | .mk _ _ _ b _ _ _ _ _ => b
def RVal.markedQuery : RVal → Bool | .mk _ _ _ _ b _ _ _ _ => b
def RVal.markedUnawaited : RVal → Bool | .mk _ _ _ _ _ b _ _ _ => b
def RVal.resultPromise : RVal → Option RVal | .mk _ _ _ _ _ _ r _ _ => r
def RVal.storedResult : RVal → Option RVal | .mk _ _ _ _ _ _ _ r _ => r
def RVal.finalizable : RVal → Bool | .mk _ _ _ _ _ _ _ _ b => b

/-- `markPromiseUnawaited`: set the hidden un-awaited mark. -/
def RVal.markUnawaited : RVal → RVal
  | .mk a b c d e _ rp sr f => .mk a b c d e true rp sr f

/-- `isThenable(value)`: non-null with a callable `then`. -/
def isThenable : Option RVal → Bool
  | none => false
  | some v => v.thenable

/-- `isMongooseQuery(value)` (`tracer/runtime.js` lines 64–74). -/
def isMongooseQuery : Option RVal → Bool
  | none => false
  | some v =>
    v.thenable && (v.hasExec || v.markedQuery || v.ctorQuery || v.hasModel)

/-- `markPromiseUnawaited` lifted to a possibly-absent value (the JS
function returns without effect on non-objects). -/
def markPromiseValue : Option RVal → Option RVal
  | none => none
  | some v => some v.markUnawaited

/-- Span record kept on the scope's span stack. -/
structure Span where
  id : Nat
  parentId : Option Nat
  depth : Nat
deriving DecidableEq

/-- The span info an exit works with; all-`none` when the stack was empty
(`popSpan`'s `{ id: null, parentId: null, depth: null }`). -/
structure SpanInfo where
  id : Option Nat
  parentId : Option Nat
  depth : Option Nat
deriving DecidableEq

/-- The task-local store (`als` store plus the process-wide span counter).
The stack is kept top-first. -/
structure TraceCtx where
  traceId : Option String
  depth : Nat
  spanStack : List Span
  frameUnawaited : List Bool
  pendingUnawaited : List Bool
  spanCounter : Nat

/-- `pushSpan(ctx, depth, explicitParentId)`. -/
def pushSpan (ctx : TraceCtx) (depth : Nat) (explicitParent : Option Nat) :
    TraceCtx × Span :=
  let parentId :=
    match explicitParent with
    | some p => some p
    | none => (ctx.spanStack.head?).map Span.id
  let span : Span := { id := ctx.spanCounter + 1, parentId := parentId, depth := depth }
  ({ ctx with spanStack := span :: ctx.spanStack, spanCounter := ctx.spanCounter + 1 },
   span)

/-- `popSpan(ctx)`. -/
def popSpan (ctx : TraceCtx) : TraceCtx × SpanInfo :=
  match ctx.spanStack with
  | [] => (ctx, ⟨none, none, none⟩)
  | s :: rest =>
    ({ ctx with spanStack := rest }, ⟨some s.id, s.parentId, some s.depth⟩)

/-- An event emitted by the runtime (`emit({...})` call sites in
`trace.enter` / `trace.exit`); the timestamp is not modelled. -/
structure REvent where
  phase : String
  fn : Option String
  file : Option String
  line : Option Int
  traceId : Option String
  depth : Option Nat
  spanId : Option Nat
  parentSpanId : Option Nat
  returnValue : Option RVal := none
  threw : Bool := false
  error : Option RVal := none
  unawaited : Bool := false

/-- The state captured by `trace.exit`'s `finalize` closure; invoking it
with a settlement emits one exit event via `emitExit`. -/
structure FinClosure where
  fn : Option String
  file : Option String
  line : Option Int
  traceId : Option String
  spanInfo : SpanInfo
  depthAtExit : Nat
  forceUnawaited : Bool

/-- The `emitExit` event shape (depth falls back to the depth at exit when
the popped span carried none). -/
def mkExitEvent (fn file : Option String) (line : Option Int)
    (traceId : Option String) (spanInfo : SpanInfo) (depthAtExit : Nat)
    (returnValue : Option RVal) (threw : Bool) (error : Option RVal)
    (unawaited : Bool) : REvent :=
  { phase := "exit", fn := fn, file := file, line := line, traceId := traceId
    depth := some (spanInfo.depth.getD depthAtExit)
    spanId := spanInfo.id, parentSpanId := spanInfo.parentId
    returnValue := returnValue, threw := threw, error := error
    unawaited := unawaited }

/-- What `finalize(value, threw, error)` emits (single-shot: the `settled`
flag makes any further invocation a no-op). -/
def finClosureEmit (fc : FinClosure) (value : Option RVal) (threw : Bool)
    (error : Option RVal) : REvent :=
  mkExitEvent fc.fn fc.file fc.line fc.traceId fc.spanInfo fc.depthAtExit
    value threw error fc.forceUnawaited

/-- The state captured by `invokeWithTrace`'s `finalize` closure: settling
runs `trace.exit` inside the forked exit store. -/
structure InvokeFin where
  name : String
  file : Option String
  line : Option Int
  shouldForceExit : Bool
  exitCtx : TraceCtx

/-- One observable action of the runtime, in program order. -/
inductive RtAction where
  | emitted (e : REvent)
  | exitThenAttached (target : RVal) (fc : FinClosure)
  | finalizerQueued (query : RVal) (fc : FinClosure)
  | invokeThenAttached (target : RVal) (ic : InvokeFin)
  | promiseMarkedUnawaited (target : RVal)

/-- The detail record handed to `trace.exit` (after the `=== true`
normalisations the code applies). -/
structure ExitDetail where
  returnValue : Option RVal := none
  threw : Bool := false
  error : Option RVal := none
  unawaited : Bool := false

/-- `attachToPromise(promise, allowQueryPromise)` succeeds — returning the
promise `.then` was invoked on — iff the value is thenable and, when query
promises are disallowed, not recognised as a query. -/
def attachTargetOf (p : Option RVal) (allowQueryPromise : Bool) : Option RVal :=
  match p with
  | none => none
  | some q =>
    if q.thenable && (allowQueryPromise || !isMongooseQuery (some q)) then some q
    else none

/-- `trace.exit(meta, detail)` (`tracer/runtime.js` lines 149–290): pops
the frame-unawaited flag, computes the effective un-awaited flag, and
either emits now, attaches to a promise, or queues a query finalizer. -/
def traceExit (ctx : TraceCtx) (metaFn file : Option String) (line : Option Int)
    (detail : ExitDetail) : TraceCtx × List RtAction :=
  let depthAtExit := ctx.depth
  let frameUn :=
    match ctx.frameUnawaited with
    | b :: _ => b
    | [] => false
  let frames :=
    match ctx.frameUnawaited with
    | _ :: rest => rest
    | [] => []
  let ctx0 : TraceCtx := { ctx with frameUnawaited := frames }
  let baseUnawaited := detail.unawaited || frameUn
  let promiseTagged :=
    match detail.returnValue with
    | some v => v.markedUnawaited
    | none => false
  let forceUnawaited := baseUnawaited || promiseTagged
  if detail.threw then
    let (ctx1, spanInfo) := popSpan ctx0
    let ctx2 : TraceCtx := { ctx1 with depth := spanInfo.depth.getD depthAtExit - 1 }
    (ctx2, [RtAction.emitted (mkExitEvent metaFn file line ctx.traceId spanInfo
      depthAtExit detail.returnValue detail.threw detail.error forceUnawaited)])
  else
    let rv := detail.returnValue
    let isQ := isMongooseQuery rv
    if isThenable rv then
      let (ctx1, spanInfo) := popSpan ctx0
      let ctx2 : TraceCtx := { ctx1 with depth := spanInfo.depth.getD depthAtExit - 1 }
      let fc : FinClosure :=
        { fn := metaFn
          file := file
          line := line
          traceId := ctx.traceId
          spanInfo := spanInfo
          depthAtExit := depthAtExit
          forceUnawaited := forceUnawaited }
      if isQ then
        match attachTargetOf (rv.bind RVal.resultPromise) false with
        | some qp => (ctx2, [RtAction.exitThenAttached qp fc])
        | none =>
          match rv.bind RVal.storedResult with
          | some stored =>
            (ctx2, [RtAction.emitted (finClosureEmit fc (some stored) false none)])
          | none =>
            match rv with
            | some v =>
              if v.finalizable then (ctx2, [RtAction.finalizerQueued v fc])
              else
                (ctx2, [RtAction.emitted (mkExitEvent metaFn file line ctx.traceId
                  spanInfo depthAtExit rv false detail.error forceUnawaited)])
            | none =>
              -- unreachable: a query value is present by definition
              (ctx2, [RtAction.emitted (mkExitEvent metaFn file line ctx.traceId
                spanInfo depthAtExit rv false detail.error forceUnawaited)])
      else
        match attachTargetOf rv true with
        | some p => (ctx2, [RtAction.exitThenAttached p fc])
        | none =>
          -- unreachable: the guard established thenability
          (ctx2, [RtAction.emitted (mkExitEvent metaFn file line ctx.traceId
            spanInfo depthAtExit rv false detail.error forceUnawaited)])
    else
      -- non-thenable returns (the dead `if (isQuery)` branch included —
      -- isMongooseQuery requires thenability — both reduce to emitNow)
      let (ctx1, spanInfo) := popSpan ctx0
      let ctx2 : TraceCtx := { ctx1 with depth := spanInfo.depth.getD depthAtExit - 1 }
      (ctx2, [RtAction.emitted (mkExitEvent metaFn file line ctx.traceId spanInfo
        depthAtExit detail.returnValue detail.threw detail.error forceUnawaited)])

/-- `trace.enter(fn, meta, detail)` (`tracer/runtime.js` lines 113–148). -/
def traceEnter (ctx : TraceCtx) (fn : String) (file : Option String)
    (line : Option Int) (parentOverride : Option Nat) : TraceCtx × REvent :=
  let depth := ctx.depth + 1
  let frameUn :=
    match ctx.pendingUnawaited with
    | m :: _ => m
    | [] => false
  let pending :=
    match ctx.pendingUnawaited with
    | _ :: rest => rest
    | [] => []
  let ctx1 : TraceCtx :=
    { ctx with
      depth := depth
      pendingUnawaited := pending
      frameUnawaited := frameUn :: ctx.frameUnawaited }
  let (ctx2, span) := pushSpan ctx1 depth parentOverride
  (ctx2,
    { phase := "enter"
      fn := some fn
      file := file
      line := line
      traceId := ctx.traceId
      depth := some depth
      spanId := some span.id
      parentSpanId := span.parentId })

/-- Settling `invokeWithTrace`'s attached continuation: `finalize` builds
the detail and runs `trace.exit` inside the forked exit store. -/
def invokeFinEmit (ic : InvokeFin) (value : Option RVal) (threw : Bool)
    (error : Option RVal) : TraceCtx × List RtAction :=
  traceExit ic.exitCtx (some ic.name) ic.file ic.line
    { returnValue := value, threw := threw, error := error
      unawaited := ic.shouldForceExit }

/-- `forkAlsStoreForUnawaited`: same trace id, depth and span stack (no
span is ever marked suspended by any code path), fresh queues. -/
def forkForUnawaited (c : TraceCtx) : TraceCtx :=
  { c with frameUnawaited := [], pendingUnawaited := [] }

/-- Outcome of applying the callee: deterministic return or throw. -/
inductive CallOutcome where
  | ret (v : Option RVal)
  | thrown (e : RVal)

def outcomeToExcept : CallOutcome → Except RVal (Option RVal)
  | .ret v => .ok v
  | .thrown e => .error e

/-- `invokeWithTrace` (`tracer/runtime.js` lines 598–702): pending marker,
enter, apply, then dispose of the call according to the return shape. -/
def invokeWithTraceModel (ctx : TraceCtx) (name : String) (file : Option String)
    (line : Option Int) (forcedParent : Option Nat) (isUnawaitedCall : Bool)
    (outcome : CallOutcome) : TraceCtx × List RtAction × Except RVal (Option RVal) :=
  let markerConsumed := ctx.pendingUnawaited.isEmpty
  let ctxQ :=
    if isUnawaitedCall then
      { ctx with pendingUnawaited := ctx.pendingUnawaited ++ [true] }
    else ctx
  let (ctx1, enterEv) := traceEnter ctxQ name file line forcedParent
  -- the `finally` block removes the pending marker when `trace.enter` did
  -- not already shift it off the queue (only possible when the queue held
  -- older markers in front of it)
  let finallyFix := fun (c : TraceCtx) =>
    if isUnawaitedCall && !markerConsumed then
      { c with pendingUnawaited := c.pendingUnawaited.dropLast }
    else c
  match outcome with
  | .thrown e =>
    let (ctx2, effs) := traceExit ctx1 (some name) file line
      { threw := true, error := some e }
    (finallyFix ctx2, RtAction.emitted enterEv :: effs, .error e)
  | .ret out =>
    let isThen := isThenable out
    let isQ := isMongooseQuery out
    let shouldForceExit := isUnawaitedCall && isThen
    let out' := if shouldForceExit then markPromiseValue out else out
    let markActs : List RtAction :=
      if shouldForceExit then
        match out' with
        | some v => [RtAction.promiseMarkedUnawaited v]
        | none => []
      else []
    let exitCtx := forkForUnawaited ctx1
    if isThen then
      if isQ then
        let (_, effs) := traceExit exitCtx (some name) file line
          { returnValue := out', unawaited := shouldForceExit }
        (finallyFix ctx1, RtAction.emitted enterEv :: markActs ++ effs, .ok out')
      else
        let ic : InvokeFin :=
          { name := name
            file := file
            line := line
            shouldForceExit := shouldForceExit
            exitCtx := exitCtx }
        match out' with
        | some v =>
          (finallyFix ctx1, RtAction.emitted enterEv :: markActs ++
            [RtAction.invokeThenAttached v ic], .ok out')
        | none =>
          -- unreachable: a thenable value is present by definition
          (finallyFix ctx1, RtAction.emitted enterEv :: markActs, .ok out')
    else
      let (_, effs) := traceExit exitCtx (some name) file line
        { returnValue := out', unawaited := shouldForceExit }
      (finallyFix ctx1, RtAction.emitted enterEv :: markActs ++ effs, .ok out')

/-- Display-name choice of `invokeWithTrace` (lines 607–609). -/
def dispatchName (label : Option String) (fnName : String) : String :=
  let labelOk :=
    match label with
    | some s => s ≠ ""
    | none => false
  if labelOk || fnName ≠ "" then (if labelOk then label.getD "" else fnName)
  else "(anonymous)"

/-- JS string truthiness. -/
def strTruthy : Option String → Option String
  | none => none
  | some s => if s = "" then none else some s

/-- `meta.file = sourceFile || callFile || null`. -/
def metaFile (srcFile callFile : Option String) : Option String :=
  match strTruthy srcFile with
  | some s => some s
  | none => strTruthy callFile

/-- `meta.line = sourceFile ? null : (callLine || null)` (note `0` is
falsy). -/
def metaLine (srcFile : Option String) (callLine : Option Int) : Option Int :=
  match strTruthy srcFile with
  | some _ => none
  | none =>
    match callLine with
    | some n => if n = 0 then none else some n
    | none => none

/-- The dispatcher `__repro_call` (`tracer/runtime.js` lines 474–747).
`store` is the active task-local store (`als.getStore()`).  The
classification marks computed at lines 498–510 (`isApp`, `instrumented`)
are not consumed by any later branch of the dispatch and are omitted.  The
outer `catch` swallows any exception escaping `invokeWithTrace` (including
a user throw re-raised by its catch block) and invokes the function
directly once more; with a deterministic outcome the same exception then
propagates to the caller. -/
def reproCallModel (store : Option TraceCtx) (callable skipWrap bodyTraced : Bool)
    (fnName : String) (srcFile callFile : Option String) (callLine : Option Int)
    (label : Option String) (isUnawaitedCall : Bool) (outcome : CallOutcome) :
    List RtAction × Except RVal (Option RVal) :=
  if !callable || skipWrap then
    ([], outcomeToExcept outcome)
  else
    match store with
    | none =>
      match outcome with
      | .ret v =>
        if isUnawaitedCall && isThenable v then
          ((match markPromiseValue v with
            | some m => [RtAction.promiseMarkedUnawaited m]
            | none => []), .ok (markPromiseValue v))
        else ([], .ok v)
      | .thrown e => ([], .error e)
    | some c =>
      if bodyTraced then
        -- body-traced callee emits its own enter/exit; the dispatcher only
        -- propagates the un-awaited mark
        match outcome with
        | .ret v =>
          if isUnawaitedCall && isThenable v then
            ((match markPromiseValue v with
              | some m => [RtAction.promiseMarkedUnawaited m]
              | none => []), .ok (markPromiseValue v))
          else ([], .ok v)
        | .thrown e => ([], .error e)
      else
        let callStore : TraceCtx :=
          { traceId := c.traceId
            depth := c.depth
            spanStack := c.spanStack
            frameUnawaited := []
            pendingUnawaited := []
            spanCounter := c.spanCounter }
        let parentSpanId := (callStore.spanStack.head?).map Span.id
        let name := dispatchName label fnName
        let (_, acts, res) := invokeWithTraceModel callStore name
          (metaFile srcFile callFile) (metaLine srcFile callLine)
          parentSpanId isUnawaitedCall outcome
        match res with
        | .ok v => (acts, .ok v)
        | .error _ => (acts, outcomeToExcept outcome)

/-- `flushQueryFinalizers(query, value, threw, error)` (`src/index.ts`
lines 78–87): the queue is cleared and every queued `finalize` is invoked
once with the settlement; each emits its single exit event. -/
def flushQueryFinalizersModel (fins : List FinClosure) (value : Option RVal)
    (threw : Bool) (error : Option RVal) : List REvent :=
  fins.map (fun fc => finClosureEmit fc value threw error)

/-- Resolution step of the patched `exec` (`patchMongooseExecCapture`,
`src/index.ts` lines 96–116): when the exec promise fulfils with `res`,
the result is stored on the query and the finalizer queue is drained. -/
def execResolutionEvents (fins : List FinClosure) (res : Option RVal) :
    List REvent :=
  flushQueryFinalizersModel fins res false none

/-- Projection: the value a runtime action attached a `.then` continuation
to, when it did. -/
def actionThenTarget : RtAction → Option RVal
  | .exitThenAttached t _ => some t
  | .invokeThenAttached t _ => some t
  | _ => none

/-- Projection: is this action the synchronous emission of an exit event? -/
def actionIsEmittedExit : RtAction → Bool
  | .emitted e => e.phase = "exit"
  | _ => false

/-- Projection: is this action the synchronous emission of any event? -/
def actionIsEmitted : RtAction → Bool
  | .emitted _ => true
  | _ => false

/-- No action in the list attaches a `.then` continuation to a value the
runtime recognises as a database query builder. -/
def noQueryThenTargets (acts : List RtAction) : Bool :=
  acts.all (fun a =>
    match actionThenTarget a with
    | some t => !isMongooseQuery (some t)
    | none => true)

/-! ## Transformer call-site rewriting (`tracer/wrap-plugin.js`, `wrapCall`)

`wrapCall` replaces a call expression with a sequence expression ending in
a `__repro_call(...)` invocation.  The model captures the skip conditions
and the argument vector handed to the dispatcher.  The source-map /
location fallbacks (`mapped?.file || filenameForMeta || state.file...`,
`mapped?.line ?? loc?.line ?? 0`) are folded into the `file`/`line`
parameters of the model, since they only select which string/number
literal is emitted. -/

/-- The property of a member callee, as the label logic inspects it. -/
inductive PropKey where
  | identP (name : String)
  | strP (s : String)
  | otherP
deriving DecidableEq, Repr

/-- The callee shapes `wrapCall` distinguishes. -/
inductive CalleeShape where
  | identC (name : String)
  | memberC (objIsTraceIdent : Bool) (prop : PropKey) (computed : Bool)
  | superC
  | importC
  | otherC
deriving DecidableEq, Repr

/-- A `CallExpression` node as inspected by `wrapCall`. -/
structure CallNode where
  callee : CalleeShape
  argCount : Nat
  optionalCall : Bool
  internalMark : Bool
  alreadyWrapped : Bool
  line : Nat
deriving DecidableEq, Repr

/-- The argument expressions of the produced `__repro_call(...)` call. -/
inductive RewriteArg where
  | tempFn
  | tempObj
  | nullLit
  | arrayArgs (n : Nat)
  | strLit (s : String)
  | numLit (n : Nat)
  | boolLit (b : Bool)
deriving DecidableEq, Repr

def RewriteArg.isBool : RewriteArg → Bool
  | .boolLit _ => true
  | _ => false

/-- Label choice for member calls: property name when not computed and an
identifier; string-literal value otherwise when a string literal; else
empty. -/
def memberLabel (prop : PropKey) (computed : Bool) : String :=
  match prop, computed with
  | .identP nm, false => nm
  | .strP s, _ => s
  | _, _ => ""

/-- Result of `wrapCall` on one call expression. -/
inductive WrapCallResult where
  | skipped
  | replaced (dispatchArgs : List RewriteArg)
deriving DecidableEq, Repr

/-- `wrapCall` (`tracer/wrap-plugin.js` lines 202–296): skip the helper
itself, `super(...)`, `import(...)`, optional calls and `__trace` calls;
otherwise replace the call with a sequence expression whose final
`__repro_call` receives `(fn, thisArg, [args], file, line, label)`. -/
def wrapCall (n : CallNode) (file : String) : WrapCallResult :=
  if n.alreadyWrapped then .skipped
  else if n.internalMark then .skipped
  else
    match n.callee with
    | .identC nm =>
      if nm = "__repro_call" then .skipped
      else if n.optionalCall then .skipped
      else if nm = "__trace" then .skipped
      else
        .replaced [RewriteArg.tempFn, RewriteArg.nullLit,
          RewriteArg.arrayArgs n.argCount, RewriteArg.strLit file,
          RewriteArg.numLit n.line, RewriteArg.strLit nm]
    | .memberC objTrace prop computed =>
      if n.optionalCall then .skipped
      else if objTrace then .skipped
      else
        .replaced [RewriteArg.tempFn, RewriteArg.tempObj,
          RewriteArg.arrayArgs n.argCount, RewriteArg.strLit file,
          RewriteArg.numLit n.line, RewriteArg.strLit (memberLabel prop computed)]
    | .superC => .skipped
    | .importC => .skipped
    | .otherC =>
      if n.optionalCall then .skipped
      else
        .replaced [RewriteArg.tempFn, RewriteArg.nullLit,
          RewriteArg.arrayArgs n.argCount, RewriteArg.strLit file,
          RewriteArg.numLit n.line, RewriteArg.strLit ""]

/-! ## `reproMiddleware` header gate (`src/index.ts` lines 1265–1507) -/

/-- An incoming request as the middleware reads it. -/
structure MwRequest where
  headers : List (String × String)
deriving DecidableEq, Repr

/-- `req.headers[k]` (absent header is `undefined`). -/
def headerValue (r : MwRequest) (k : String) : Option String :=
  (r.headers.find? (fun p => p.1 = k)).map (fun p => p.2)

/-- The externally visible installations performed by one middleware
invocation. -/
structure MwEffects where
  nextCalled : Bool
  jsonPatched : Bool
  sendPatched : Bool
  writePatched : Bool
  endPatched : Bool
  subscribed : Bool
  flushArmed : Bool
deriving DecidableEq, Repr

/-- The early-return path: only `next()` runs; nothing is installed, no
payload path is armed. -/
def passthroughEffects : MwEffects :=
  { nextCalled := true
    jsonPatched := false
    sendPatched := false
    writePatched := false
    endPatched := false
    subscribed := false
    flushArmed := false }

/-- `reproMiddleware`'s gate: `const sid = headers['x-bug-session-id'] ||
''; const aid = headers['x-bug-action-id'] || ''; if (!sid || !aid) return
next();` — otherwise the capture path patches the four response methods,
subscribes to the tracer when one is active, and arms the flush that posts
the payloads. -/
def reproMiddlewareModel (req : MwRequest) (tracerActive : Bool) : MwEffects :=
  let sid := (headerValue req "x-bug-session-id").getD ""
  let aid := (headerValue req "x-bug-action-id").getD ""
  if sid = "" ∨ aid = "" then passthroughEffects
  else
    { nextCalled := true
      jsonPatched := true
      sendPatched := true
      writePatched := true
      endPatched := true
      subscribed := tracerActive
      flushArmed := true }

/-! ## Specification side of the reordering (claim C2)

The specification describes the Assembler's output on a scope whose spans
form a tree: a depth-first linearization — for each span its `enter`, then
its children in first-emission order, then its `exit` — with depths
rewritten to the tree depth.  `SpanTree` is that abstract tree, `linForest`
is the specification's linearization, and `formsB` states that an event
list's spans form exactly a given forest: every event carries a span id,
each span contributes exactly one `enter` and one `exit` (in either
physical order), parent pointers follow the tree edges, span ids are
distinct, and siblings are listed in first-emission order. -/

/-- An abstract span tree: the span's id, its two events, its subtrees. -/
inductive SpanTree where
  | node (sid : String) (enterEv exitEv : TraceEventRecord) (children : List SpanTree)

/-- The span id at the root of a tree. -/
def SpanTree.topSid : SpanTree → String
  | .node s _ _ _ => s

mutual

/-- The specification's linearization of one span at depth `d`: its enter,
the children at depth `d + 1`, then its exit, depths rewritten. -/
def linTree (d : Nat) : SpanTree → List TraceEventRecord
  | .node _ e x cs =>
    ({ e with depth := some (Int.ofNat d) } :: linForest (d + 1) cs) ++
      [{ x with depth := some (Int.ofNat d) }]

/-- The specification's linearization of a forest, in sibling order. -/
def linForest (d : Nat) : List SpanTree → List TraceEventRecord
  | [] => []
  | t :: ts => linTree d t ++ linForest d ts

end

mutual

/-- Height of a span tree (number of levels). -/
def heightT : SpanTree → Nat
  | .node _ _ _ cs => heightF cs + 1

/-- Height of a span forest. -/
def heightF : List SpanTree → Nat
  | [] => 0
  | t :: ts => max (heightT t) (heightF ts)

end

/-- The events carrying span id `sid`, with their positions in the list. -/
def sidEventsIdx (events : List TraceEventRecord) (sid : String) :
    List (Nat × TraceEventRecord) :=
  events.enum.filter (fun p => normSpan p.2.spanId = some sid)

/-- Position of the first event of a span — the `order` the node map
records for it. -/
def firstIdx (events : List TraceEventRecord) (sid : String) : Nat :=
  match sidEventsIdx events sid with
  | [] => events.length
  | p :: _ => p.1

/-- The events of span `sid` are exactly `e` and `x`, in either physical
order. -/
def spanPairB (events : List TraceEventRecord) (sid : String)
    (e x : TraceEventRecord) : Bool :=
  decide ((sidEventsIdx events sid).map Prod.snd = [e, x]) ||
    decide ((sidEventsIdx events sid).map Prod.snd = [x, e])

/-- Sibling span ids listed in first-emission order. -/
def sibsSortedB (events : List TraceEventRecord) : List String → Bool
  | [] => true
  | [_] => true
  | a :: b :: rest =>
    decide (firstIdx events a < firstIdx events b) && sibsSortedB events (b :: rest)

mutual

/-- Per-span conditions: one `enter` and one `exit` event both carrying the
span id and the parent pointer, well-formed subtrees, and children listed
in first-emission order. -/
def treeOkB (events : List TraceEventRecord) (parent : Option String) :
    SpanTree → Bool
  | .node sid e x cs =>
    decide (e.type = "enter") && decide (x.type = "exit") &&
    decide (normSpan e.spanId = some sid) && decide (normSpan x.spanId = some sid) &&
    decide (normSpan e.parentSpanId = parent) &&
    decide (normSpan x.parentSpanId = parent) &&
    spanPairB events sid e x &&
    sibsSortedB events (cs.map SpanTree.topSid) &&
    forestOkB events (some sid) cs

/-- `treeOkB` over every tree of a forest, all under the same parent. -/
def forestOkB (events : List TraceEventRecord) (parent : Option String) :
    List SpanTree → Bool
  | [] => true
  | t :: ts => treeOkB events parent t && forestOkB events parent ts

end

/-- One node of the span forest, flattened: its id, parent pointer, the two
events, and its children's ids. -/
structure FlatNode where
  sid : String
  parent : Option String
  enterEv : TraceEventRecord
  exitEv : TraceEventRecord
  kidSids : List String
deriving DecidableEq, Repr

/-- The flattened root node of one tree under a given parent. -/
def headFlat (parent : Option String) : SpanTree → FlatNode
  | .node sid e x cs =>
    { sid := sid
      parent := parent
      enterEv := e
      exitEv := x
      kidSids := cs.map SpanTree.topSid }

mutual

/-- All flattened nodes of a tree (root first). -/
def treeFlat (parent : Option String) : SpanTree → List FlatNode
  | .node sid e x cs =>
    headFlat parent (.node sid e x cs) :: forestFlat (some sid) cs

/-- All flattened nodes of a forest. -/
def forestFlat (parent : Option String) : List SpanTree → List FlatNode
  | [] => []
  | t :: ts => treeFlat parent t ++ forestFlat parent ts

end

/-- All span ids of a forest. -/
def forestSids (F : List SpanTree) : List String :=
  (forestFlat none F).map FlatNode.sid

/-- The event list's spans form exactly the forest `F`. -/
def formsB (events : List TraceEventRecord) (F : List SpanTree) : Bool :=
  events.all (fun ev => (normSpan ev.spanId).isSome) &&
  events.all (fun ev =>
    match normSpan ev.spanId with
    | some s => (forestSids F).contains s
    | none => true) &&
  decide (forestSids F).Nodup &&
  sibsSortedB events (F.map SpanTree.topSid) &&
  forestOkB events none F

/-- The per-key trace of the node-map construction: how the entry of one
span id evolves while the events are scanned. -/
def nodeFoldIdx : Option SpanNodeR → List (Nat × TraceEventRecord) → Option SpanNodeR
  | acc, [] => acc
  | none, p :: rest => nodeFoldIdx (some (freshNode p.1 p.2)) rest
  | some n, p :: rest => nodeFoldIdx (some (updateNode p.1 p.2 n)) rest

/-- The node the map stores for a span id (dummy when the id never occurs). -/
def nodeValOf (events : List TraceEventRecord) (s : String) : SpanNodeR :=
  (lookupNode (buildNodes events) s).getD
    { parentId := none, enter := none, exit := none, order := 0 }

/-- What the node map records for a flattened span node. -/
def nodeMatches (events : List TraceEventRecord) (fe : FlatNode)
    (n : SpanNodeR) : Prop :=
  n.enter = some fe.enterEv ∧ n.exit = some fe.exitEv ∧
    normSpan n.parentId = fe.parent ∧ n.order = firstIdx events fe.sid

/-- The per-node conditions `forestOkB` grants to every flattened node. -/
def flatOk (events : List TraceEventRecord) (fe : FlatNode) : Prop :=
  fe.enterEv.type = "enter" ∧ fe.exitEv.type = "exit" ∧
  normSpan fe.enterEv.spanId = some fe.sid ∧
  normSpan fe.exitEv.spanId = some fe.sid ∧
  normSpan fe.enterEv.parentSpanId = fe.parent ∧
  normSpan fe.exitEv.parentSpanId = fe.parent ∧
  spanPairB events fe.sid fe.enterEv fe.exitEv = true ∧
  sibsSortedB events fe.kidSids = true

/-- Scenario: `enter A`, opening span `s1`. -/
def c2EnterA : TraceEventRecord :=
  { t := 0
    type := "enter"
    fn := some "A"
    depth := some 7
    spanId := some "s1" }

/-- Scenario: `enter B`, opening span `s2`, a child of `s1`. -/
def c2EnterB : TraceEventRecord :=
  { t := 1
    type := "enter"
    fn := some "B"
    depth := some 9
    spanId := some "s2"
    parentSpanId := some "s1" }

/-- Scenario: `exit B`, arriving before `exit A`. -/
def c2ExitB : TraceEventRecord :=
  { t := 2
    type := "exit"
    fn := some "B"
    spanId := some "s2"
    parentSpanId := some "s1" }

/-- Scenario: `exit A`, closing the root span. -/
def c2ExitA : TraceEventRecord :=
  { t := 3
    type := "exit"
    fn := some "A"
    spanId := some "s1" }

/-- The four scenario events in physical arrival order. -/
def c2Events : List TraceEventRecord := [c2EnterA, c2EnterB, c2ExitB, c2ExitA]

/-- The span tree those events form: B a child of A. -/
def c2Forest : List SpanTree :=
  [SpanTree.node "s1" c2EnterA c2ExitA [SpanTree.node "s2" c2EnterB c2ExitB []]]

lemma makeKey_ne_empty (ev : TraceEventRecord) : makeKey ev ≠ "" := by
  intro h
  have hlen := congrArg String.length h
  have hbar : ("|" : String).length = 1 := rfl
  have hemp : ("" : String).length = 0 := rfl
  simp only [makeKey, String.length_append, hbar, hemp] at hlen
  omega

lemma getElem?_append_middle (front rest : List TraceEventRecord)
    (ev : TraceEventRecord) :
    (front ++ ev :: rest)[front.length]? = some ev := by
  induction front with
  | nil => simp
  | cons a front ih =>
    rw [List.cons_append, List.length_cons, List.getElem?_cons_succ]
    exact ih

lemma drop_append_middle (front rest : List TraceEventRecord)
    (ev : TraceEventRecord) :
    (front ++ ev :: rest).drop (front.length + 1) = rest := by
  induction front with
  | nil => simp
  | cons a front ih =>
    rw [List.cons_append, List.length_cons]
    rw [show front.length + 1 + 1 = (front.length + 1) + 1 from rfl, List.drop_succ_cons]
    exact ih

/-- Core correspondence: the seen-set loop of `balanceTraceEvents` computes
the specification-side insertion.  `front` is the already-processed part of
the event list and `seen` holds exactly the keys whose first unmatched
`enter` lies in `front`. -/
lemma balanceLoop_eq_specBalanceFrom :
    ∀ (rest front : List TraceEventRecord) (seen : List String)
      (events : List TraceEventRecord),
      events = front ++ rest →
      (∀ k : String, seen.contains k = true ↔
        ∃ j, j < front.length ∧ unmatchedEnterAt events j = true ∧
          keyAt events j = k) →
      balanceLoop seen rest = specBalanceFrom events front.length rest := by
  intro rest
  induction rest with
  | nil => intro front seen events _ _; rfl
  | cons ev rest ih =>
    intro front seen events hev hseen
    have hget : events[front.length]? = some ev := by
      rw [hev]; exact getElem?_append_middle front rest ev
    have hdrop : events.drop (front.length + 1) = rest := by
      rw [hev]; exact drop_append_middle front rest ev
    have hU : unmatchedEnterAt events front.length =
        (decide (ev.type = "enter") && !hasMatchingExit (makeKey ev) rest) := by
      simp only [unmatchedEnterAt, hget, hdrop]
    have hK : keyAt events front.length = makeKey ev := by
      simp only [keyAt, hget]
    have hext : events = (front ++ [ev]) ++ rest := by
      rw [hev, List.append_assoc]; rfl
    have hlen' : (front ++ [ev]).length = front.length + 1 := by simp
    -- invariant transfer when the head is not itself an unmatched enter
    have stepSame : unmatchedEnterAt events front.length = false →
        (∀ k : String, seen.contains k = true ↔
          ∃ j, j < front.length + 1 ∧ unmatchedEnterAt events j = true ∧
            keyAt events j = k) := by
      intro hUf k
      rw [hseen k]
      constructor
      · rintro ⟨j, hj, h1, h2⟩; exact ⟨j, by omega, h1, h2⟩
      · rintro ⟨j, hj, h1, h2⟩
        rcases Nat.lt_succ_iff_lt_or_eq.mp hj with h | h
        · exact ⟨j, h, h1, h2⟩
        · rw [h, hUf] at h1; exact absurd h1 (by simp)
    by_cases htype : ev.type = "enter"
    · -- enter event
      by_cases hcont : seen.contains (makeKey ev) = true
      · -- key already seen: no synthetic inserted, seen unchanged
        have hfirst : firstUnmatchedAt events front.length = false := by
          rcases (hseen (makeKey ev)).mp hcont with ⟨j, hj, hUj, hKj⟩
          rw [Bool.eq_false_iff]
          intro habs
          rw [firstUnmatchedAt, Bool.and_eq_true, List.all_eq_true] at habs
          have hthis := habs.2 j (List.mem_range.mpr hj)
          rw [hK] at hthis
          simp [hUj, hKj] at hthis
        have hinv : ∀ k : String, seen.contains k = true ↔
            ∃ j, j < front.length + 1 ∧ unmatchedEnterAt events j = true ∧
              keyAt events j = k := by
          intro k
          rw [hseen k]
          constructor
          · rintro ⟨j, hj, h1, h2⟩; exact ⟨j, by omega, h1, h2⟩
          · rintro ⟨j, hj, h1, h2⟩
            rcases Nat.lt_succ_iff_lt_or_eq.mp hj with h | h
            · exact ⟨j, h, h1, h2⟩
            · -- j = front.length: its key is makeKey ev, already in seen
              rw [h, hK] at h2
              rw [h2] at hcont
              exact (hseen k).mp hcont
        have hrec := ih (front ++ [ev]) seen events hext
          (by rw [hlen']; exact hinv)
        rw [hlen'] at hrec
        simp only [balanceLoop, specBalanceFrom, hrec, hfirst]
        rw [if_pos htype, if_pos (Or.inr hcont)]
        simp
      · -- key not yet seen
        by_cases hx : hasMatchingExit (makeKey ev) rest = true
        · -- a later exit matches: no synthetic
          have hUf : unmatchedEnterAt events front.length = false := by
            rw [hU, hx]; simp
          have hfirst : firstUnmatchedAt events front.length = false := by
            rw [firstUnmatchedAt, hUf]; rfl
          have hrec := ih (front ++ [ev]) seen events hext
            (by rw [hlen']; exact stepSame hUf)
          rw [hlen'] at hrec
          simp only [balanceLoop, specBalanceFrom, hrec, hfirst]
          rw [if_pos htype, if_neg ?hc, if_pos hx]
          case hc =>
            rintro (h | h)
            · exact makeKey_ne_empty ev h
            · exact hcont h
          simp
        · -- first unmatched enter for this key: synthetic inserted here
          have hxf : hasMatchingExit (makeKey ev) rest = false := by
            simpa using hx
          have hUev : unmatchedEnterAt events front.length = true := by
            rw [hU, hxf]; simp [htype]
          have hfirst : firstUnmatchedAt events front.length = true := by
            rw [firstUnmatchedAt, hUev, Bool.true_and, List.all_eq_true]
            intro j hj
            rw [List.mem_range] at hj
            by_cases hUj : unmatchedEnterAt events j = true
            · by_cases hKj : keyAt events j = keyAt events front.length
              · exfalso
                apply hcont
                apply (hseen (makeKey ev)).mpr
                exact ⟨j, hj, hUj, by rw [hKj, hK]⟩
              · simp [hUj, hKj]
            · rw [Bool.not_eq_true] at hUj
              simp [hUj]
          have hcons : ∀ k : String, ((makeKey ev :: seen).contains k = true) ↔
              (k = makeKey ev ∨ seen.contains k = true) := by
            intro k; simp [List.contains_cons]
          have hinv : ∀ k : String, (makeKey ev :: seen).contains k = true ↔
              ∃ j, j < front.length + 1 ∧ unmatchedEnterAt events j = true ∧
                keyAt events j = k := by
            intro k
            rw [hcons k]
            constructor
            · intro hk
              rcases hk with h | h
              · exact ⟨front.length, by omega, hUev, by rw [hK]; exact h.symm⟩
              · rcases (hseen k).mp h with ⟨j, hj, h1, h2⟩
                exact ⟨j, by omega, h1, h2⟩
            · rintro ⟨j, hj, h1, h2⟩
              rcases Nat.lt_succ_iff_lt_or_eq.mp hj with h | h
              · exact Or.inr ((hseen k).mpr ⟨j, h, h1, h2⟩)
              · rw [h, hK] at h2
                exact Or.inl h2.symm
          have hrec := ih (front ++ [ev]) (makeKey ev :: seen) events hext
            (by rw [hlen']; exact hinv)
          rw [hlen'] at hrec
          simp only [balanceLoop, specBalanceFrom, hrec, hfirst]
          rw [if_pos htype, if_neg ?hc2, if_neg (by simp [hxf])]
          case hc2 =>
            rintro (h | h)
            · exact makeKey_ne_empty ev h
            · exact hcont h
          simp
    · -- not an enter: event kept, nothing inserted
      have hUf : unmatchedEnterAt events front.length = false := by
        rw [hU]; simp [htype]
      have hfirst : firstUnmatchedAt events front.length = false := by
        rw [firstUnmatchedAt, hUf]; rfl
      have hrec := ih (front ++ [ev]) seen events hext
        (by rw [hlen']; exact stepSame hUf)
      rw [hlen'] at hrec
      simp only [balanceLoop, specBalanceFrom, hrec, hfirst]
      rw [if_neg htype]
      simp

/-- `balanceTraceEvents` computes exactly the specification-side balancing:
key-based matching, one synthetic exit per key, inserted immediately after
the first unmatched `enter` of that key. -/
lemma balance_eq_specBalance (events : List TraceEventRecord) :
    balanceTraceEvents events = specBalance events := by
  unfold balanceTraceEvents specBalance
  by_cases h : events = []
  · subst h; rfl
  · rw [if_neg h]
    exact balanceLoop_eq_specBalanceFrom events [] [] events rfl
      (by
        intro k
        constructor
        · intro hk; cases hk
        · rintro ⟨j, hj, _⟩; simp at hj)

/-- Splitting lemma for the specification-side balancing. -/
lemma specBalanceFrom_append (events l₁ l₂ : List TraceEventRecord) (i : Nat) :
    specBalanceFrom events i (l₁ ++ l₂) =
      specBalanceFrom events i l₁ ++ specBalanceFrom events (i + l₁.length) l₂ := by
  induction l₁ generalizing i with
  | nil => simp [specBalanceFrom]
  | cons e tl ih =>
    have harith : i + 1 + tl.length = i + (tl.length + 1) := by omega
    simp only [List.cons_append, specBalanceFrom, List.length_cons, List.append_eq,
      ih (i + 1), harith, List.append_assoc]

/-- At most one index per identity key can hold the first unmatched
`enter` of that key. -/
lemma firstUnmatchedAt_unique (events : List TraceEventRecord) (i₁ i₂ : Nat)
    (h1 : firstUnmatchedAt events i₁ = true)
    (h2 : firstUnmatchedAt events i₂ = true)
    (hk : keyAt events i₁ = keyAt events i₂) : i₁ = i₂ := by
  rw [firstUnmatchedAt, Bool.and_eq_true, List.all_eq_true] at h1 h2
  by_contra hne
  rcases Nat.lt_or_ge i₁ i₂ with h | h
  · have := h2.2 i₁ (List.mem_range.mpr h)
    simp [h1.1, hk] at this
  · have hlt : i₂ < i₁ := by omega
    have := h1.2 i₂ (List.mem_range.mpr hlt)
    simp [h2.1, hk] at this

/-- A duplicate-free list whose filtered elements are pairwise equal keeps
at most one element after filtering. -/
lemma length_filter_le_one {p : Nat → Bool} (l : List Nat) (hnd : l.Nodup)
    (huniq : ∀ a b, p a = true → p b = true → a = b) :
    (l.filter p).length ≤ 1 := by
  cases hf : l.filter p with
  | nil => simp
  | cons a tl =>
    cases tl with
    | nil => simp
    | cons b tl2 =>
      exfalso
      have hnd2 : (l.filter p).Nodup := hnd.filter p
      rw [hf] at hnd2
      have ha : p a = true := List.of_mem_filter (l := l) (by rw [hf]; exact .head _)
      have hb : p b = true := List.of_mem_filter (l := l)
        (by rw [hf]; exact .tail _ (.head _))
      have hab : a = b := huniq a b ha hb
      rw [List.nodup_cons] at hnd2
      exact hnd2.1 (hab ▸ List.Mem.head _)

/-- Balancing leaves a balanced list untouched (no branch of the loop
inserts a synthetic exit, and `seen` never grows). -/
lemma balanceLoop_id_of_balanced (seen : List String) :
    ∀ l : List TraceEventRecord, isBalancedList l = true → balanceLoop seen l = l := by
  intro l
  induction l with
  | nil => intro _; rfl
  | cons e rest ih =>
    intro hbal
    rw [isBalancedList, Bool.and_eq_true] at hbal
    have hrec := ih hbal.2
    by_cases htype : e.type = "enter"
    · have hx : hasMatchingExit (makeKey e) rest = true := by
        have := hbal.1
        rwa [if_pos htype] at this
      rw [balanceLoop, if_pos htype]
      by_cases hc : makeKey e = "" ∨ seen.contains (makeKey e)
      · rw [if_pos hc, hrec]
      · rw [if_neg hc, if_pos hx, hrec]
    · rw [balanceLoop, if_neg htype, hrec]

/-- Balancing is the identity on balanced lists. -/
lemma balance_id_of_balanced (l : List TraceEventRecord)
    (h : isBalancedList l = true) : balanceTraceEvents l = l := by
  unfold balanceTraceEvents
  by_cases he : l = []
  · rw [if_pos he]
  · rw [if_neg he]
    exact balanceLoop_id_of_balanced [] l h

/-- C10: within a single balancing pass, the Assembler matches exits to
enters by the identity key (function name, file, line, function kind —
`makeKey`), not by span id: the output is the input with one synthetic exit
inserted immediately after each first key-unmatched `enter`, and for every
key at most one position receives a synthetic exit — of several enters
sharing a key with no matching exit, only the first gets one. -/
theorem C10_balance_matches_by_identity_key (events : List TraceEventRecord) :
    balanceTraceEvents events = specBalance events ∧
    ∀ k : String,
      ((List.range events.length).filter
        (fun i => firstUnmatchedAt events i && keyAt events i = k)).length ≤ 1 := by
  refine ⟨balance_eq_specBalance events, fun k => ?_⟩
  apply length_filter_le_one _ (List.nodup_range _)
  intro a b ha hb
  rw [Bool.and_eq_true] at ha hb
  have h1 := ha.2
  have h2 := hb.2
  simp only [decide_eq_true_eq] at h1 h2
  exact firstUnmatchedAt_unique events a b ha.1 hb.1 (by rw [h1, h2])

/-- C1 (counterexample): balancing matches by identity key, not span id.
For the list `[enter f (span 1), exit f (span 99)]` the enter's span 1 has
no exit with the same span id, yet balancing adds nothing — the claim that
after balancing every `enter` is matched by exactly one `exit` with the
same span id (with a synthetic exit added for every span-unmatched enter)
fails at this input. -/
theorem C1_counterexample :
    balanceTraceEvents
        [{ t := 0, type := "enter", fn := some "f", spanId := some "1" },
         { t := 1, type := "exit", fn := some "f", spanId := some "99" }] =
      [{ t := 0, type := "enter", fn := some "f", spanId := some "1" },
       { t := 1, type := "exit", fn := some "f", spanId := some "99" }] ∧
    ((balanceTraceEvents
        [{ t := 0, type := "enter", fn := some "f", spanId := some "1" },
         { t := 1, type := "exit", fn := some "f", spanId := some "99" }]).filter
      (fun e => e.type = "exit" && e.spanId = some "1")).length = 0 := by
  constructor
  · decide
  · decide

/-- C1 (amended): after balancing, the first `enter` whose identity key
(function name, file, line, function kind) has no matching exit later in
the list receives a synthetic exit immediately after it, carrying the same
identification fields (fn, file, line, functionType, span id, parent span
id), depth one less (floored at zero), `unawaited = true`, and empty
return value and error; matching is by identity key, so an enter can
remain without an exit of its own span id. -/
theorem C1_amended_synthetic_exit (events front back : List TraceEventRecord)
    (ev : TraceEventRecord)
    (hsplit : events = front ++ ev :: back)
    (henter : ev.type = "enter")
    (hnoexit : hasMatchingExit (makeKey ev) back = false)
    (hfirst : ∀ j, j < front.length →
      ¬(unmatchedEnterAt events j = true ∧ keyAt events j = makeKey ev)) :
    ∃ pre post s, balanceTraceEvents events = pre ++ ev :: s :: post ∧
      s.type = "exit" ∧ s.fn = ev.fn ∧ s.file = ev.file ∧ s.line = ev.line ∧
      s.functionType = ev.functionType ∧ s.spanId = ev.spanId ∧
      s.parentSpanId = ev.parentSpanId ∧
      s.depth = ev.depth.map (fun d => max 0 (d - 1)) ∧
      s.unawaited = some true ∧ s.returnValue = none ∧ s.threw = some false ∧
      s.error = none := by
  subst hsplit
  have hget : (front ++ ev :: back)[front.length]? = some ev :=
    getElem?_append_middle front back ev
  have hdrop : (front ++ ev :: back).drop (front.length + 1) = back :=
    drop_append_middle front back ev
  have hU : unmatchedEnterAt (front ++ ev :: back) front.length = true := by
    simp only [unmatchedEnterAt, hget, hdrop, hnoexit]
    simp [henter]
  have hKK : keyAt (front ++ ev :: back) front.length = makeKey ev := by
    simp only [keyAt, hget]
  have hkey : firstUnmatchedAt (front ++ ev :: back) front.length = true := by
    rw [firstUnmatchedAt, hU, Bool.true_and, List.all_eq_true]
    intro j hj
    rw [List.mem_range] at hj
    by_cases hUj : unmatchedEnterAt (front ++ ev :: back) j = true
    · by_cases hKj : keyAt (front ++ ev :: back) j =
          keyAt (front ++ ev :: back) front.length
      · exact absurd ⟨hUj, by rw [← hKK]; exact hKj⟩ (hfirst j hj)
      · simp [hUj, hKj]
    · rw [Bool.not_eq_true] at hUj
      simp [hUj]
  refine ⟨specBalanceFrom (front ++ ev :: back) 0 front,
    specBalanceFrom (front ++ ev :: back) (front.length + 1) back,
    synthExit ev, ?_, rfl, rfl, rfl, rfl, rfl, rfl, rfl, rfl, rfl, rfl, rfl, rfl⟩
  rw [balance_eq_specBalance]
  simp only [specBalance, specBalanceFrom_append, Nat.zero_add, specBalanceFrom, hkey]
  simp

/-- Witness for `C1_amended_synthetic_exit` at the single-element list
containing one unmatched enter. -/
theorem C1_amended_witness :
    ∃ pre post s,
      balanceTraceEvents
          [{ t := 0, type := "enter", fn := some "g", spanId := some "7",
             parentSpanId := some "3", depth := some 2 }] =
        pre ++ ({ t := 0
                  type := "enter"
                  fn := some "g"
                  spanId := some "7"
                  parentSpanId := some "3"
                  depth := some 2 } : TraceEventRecord) ::
          s :: post ∧
      s.type = "exit" ∧ s.fn = some "g" ∧ s.file = none ∧ s.line = none ∧
      s.functionType = none ∧ s.spanId = some "7" ∧
      s.parentSpanId = some "3" ∧
      s.depth = (some (2 : Int)).map (fun d => max 0 (d - 1)) ∧
      s.unawaited = some true ∧ s.returnValue = none ∧ s.threw = some false ∧
      s.error = none :=
  C1_amended_synthetic_exit _ [] []
    { t := 0, type := "enter", fn := some "g", spanId := some "7",
      parentSpanId := some "3", depth := some 2 }
    rfl rfl (by decide) (by intro j hj; simp at hj)

/-- C8: applying the Assembler (balancing then reordering) to a list that
is already balanced (every enter has a later matching exit) and already
reordered (a fixed point of the reordering pass) returns the identical
list. -/
theorem C8_assembler_identity_on_assembled (l : List TraceEventRecord)
    (h1 : isBalancedList l = true) (h2 : reorderTraceEvents l = l) :
    reorderTraceEvents (balanceTraceEvents l) = l := by
  rw [balance_id_of_balanced l h1, h2]

/-- Witness for `C8_assembler_identity_on_assembled`: a balanced, ordered
two-event trace. -/
theorem C8_witness :
    isBalancedList
        [{ t := 0, type := "enter", fn := some "f", spanId := some "1",
           depth := some 1 },
         { t := 1, type := "exit", fn := some "f", spanId := some "1",
           depth := some 1 }] = true ∧
    reorderTraceEvents
        [{ t := 0, type := "enter", fn := some "f", spanId := some "1",
           depth := some 1 },
         { t := 1, type := "exit", fn := some "f", spanId := some "1",
           depth := some 1 }] =
      [{ t := 0, type := "enter", fn := some "f", spanId := some "1",
         depth := some 1 },
       { t := 1, type := "exit", fn := some "f", spanId := some "1",
         depth := some 1 }] ∧
    reorderTraceEvents (balanceTraceEvents
        [{ t := 0, type := "enter", fn := some "f", spanId := some "1",
           depth := some 1 },
         { t := 1, type := "exit", fn := some "f", spanId := some "1",
           depth := some 1 }]) =
      [{ t := 0, type := "enter", fn := some "f", spanId := some "1",
         depth := some 1 },
       { t := 1, type := "exit", fn := some "f", spanId := some "1",
         depth := some 1 }] :=
  ⟨by decide, by decide,
    C8_assembler_identity_on_assembled _ (by decide) (by decide)⟩

/-! ## Runtime lemmas and claims C3, C4, C5, C7 -/

lemma query_thenable {v : RVal} (h : isMongooseQuery (some v) = true) :
    v.thenable = true := by
  cases v with
  | mk a b c d e f g i j =>
    simp only [isMongooseQuery, RVal.thenable, Bool.and_eq_true] at h ⊢
    exact h.1

lemma markUnawaited_thenable (v : RVal) :
    v.markUnawaited.thenable = v.thenable := by
  cases v; rfl

lemma markUnawaited_query (v : RVal) :
    isMongooseQuery (some v.markUnawaited) = isMongooseQuery (some v) := by
  cases v; rfl

lemma attachTargetOf_some {p : Option RVal} {allow : Bool} {q : RVal}
    (h : attachTargetOf p allow = some q) :
    p = some q ∧ q.thenable = true ∧
      (allow = true ∨ isMongooseQuery (some q) = false) := by
  cases p with
  | none => simp [attachTargetOf] at h
  | some v =>
    simp only [attachTargetOf] at h
    split at h
    · next hc =>
      cases h
      rw [Bool.and_eq_true, Bool.or_eq_true] at hc
      refine ⟨rfl, hc.1, ?_⟩
      rcases hc.2 with h1 | h1
      · exact Or.inl h1
      · exact Or.inr (by simpa using h1)
    · cases h

/-- Rewriting lemma: `noQueryThenTargets` over a cons cell. -/
lemma noQueryThenTargets_cons (a : RtAction) (l : List RtAction) :
    noQueryThenTargets (a :: l) =
      ((match actionThenTarget a with
        | some t => !isMongooseQuery (some t)
        | none => true) && noQueryThenTargets l) := by
  simp [noQueryThenTargets]

/-- Rewriting lemma: `noQueryThenTargets` over an append. -/
lemma noQueryThenTargets_append (l₁ l₂ : List RtAction) :
    noQueryThenTargets (l₁ ++ l₂) =
      (noQueryThenTargets l₁ && noQueryThenTargets l₂) := by
  simp [noQueryThenTargets, List.all_append]

/-- The exit path attaches continuations only to values it has verified
are not query builders. -/
lemma traceExit_targets_not_query (ctx : TraceCtx) (mf file : Option String)
    (line : Option Int) (d : ExitDetail) :
    noQueryThenTargets (traceExit ctx mf file line d).2 = true := by
  obtain ⟨drv, dthrew, derr, dun⟩ := d
  cases dthrew with
  | true => simp [traceExit, noQueryThenTargets, actionThenTarget]
  | false =>
    cases drv with
    | none =>
      simp [traceExit, noQueryThenTargets, actionThenTarget, isThenable]
    | some v =>
      by_cases hth : v.thenable = true
      · by_cases hq : isMongooseQuery (some v) = true
        · cases hat : attachTargetOf v.resultPromise false with
          | some qp =>
            have hqp : isMongooseQuery (some qp) = false := by
              rcases (attachTargetOf_some hat).2.2 with h | h
              · exact absurd h (by simp)
              · exact h
            simp [traceExit, isThenable, hth, hq, hat, hqp,
              noQueryThenTargets, actionThenTarget]
          | none =>
            cases hsr : v.storedResult with
            | some stored =>
              simp [traceExit, isThenable, hth, hq, hat, hsr,
                noQueryThenTargets, actionThenTarget]
            | none =>
              by_cases hf : v.finalizable = true
              · simp [traceExit, isThenable, hth, hq, hat, hsr, hf,
                  noQueryThenTargets, actionThenTarget]
              · rw [Bool.not_eq_true] at hf
                simp [traceExit, isThenable, hth, hq, hat, hsr, hf,
                  noQueryThenTargets, actionThenTarget]
        · rw [Bool.not_eq_true] at hq
          have hat : attachTargetOf (some v) true = some v := by
            simp [attachTargetOf, hth]
          simp [traceExit, isThenable, hth, hq, hat,
            noQueryThenTargets, actionThenTarget]
      · rw [Bool.not_eq_true] at hth
        simp [traceExit, isThenable, hth, noQueryThenTargets, actionThenTarget]

/-- The dispatcher layer attaches continuations only to values classified
as non-query thenables. -/
lemma invokeWithTrace_targets_not_query (ctx : TraceCtx) (name : String)
    (file : Option String) (line : Option Int) (fp : Option Nat) (u : Bool)
    (o : CallOutcome) :
    noQueryThenTargets (invokeWithTraceModel ctx name file line fp u o).2.1 = true := by
  cases o with
  | thrown e =>
    simp [invokeWithTraceModel, noQueryThenTargets_cons, actionThenTarget,
      traceExit_targets_not_query]
  | ret out =>
    cases out with
    | none =>
      simp [invokeWithTraceModel, isThenable, noQueryThenTargets_cons,
        noQueryThenTargets_append, actionThenTarget, traceExit_targets_not_query]
    | some w =>
      by_cases hth : w.thenable = true
      · by_cases hq : isMongooseQuery (some w) = true
        · by_cases hu : u = true
          · simp [invokeWithTraceModel, isThenable, hth, hq, hu, markPromiseValue,
              noQueryThenTargets_cons, noQueryThenTargets_append, actionThenTarget,
              traceExit_targets_not_query]
          · rw [Bool.not_eq_true] at hu
            simp [invokeWithTraceModel, isThenable, hth, hq, hu, markPromiseValue,
              noQueryThenTargets_cons, noQueryThenTargets_append, actionThenTarget,
              traceExit_targets_not_query]
        · rw [Bool.not_eq_true] at hq
          have hmq : isMongooseQuery (some w.markUnawaited) = false := by
            rw [markUnawaited_query]; exact hq
          by_cases hu : u = true
          · simp [invokeWithTraceModel, isThenable, hth, hq, hu, markPromiseValue,
              hmq, noQueryThenTargets_cons, noQueryThenTargets_append,
              actionThenTarget, traceExit_targets_not_query, noQueryThenTargets]
          · rw [Bool.not_eq_true] at hu
            simp [invokeWithTraceModel, isThenable, hth, hq, hu, markPromiseValue,
              hmq, noQueryThenTargets_cons, noQueryThenTargets_append,
              actionThenTarget, traceExit_targets_not_query, noQueryThenTargets]
      · rw [Bool.not_eq_true] at hth
        simp [invokeWithTraceModel, isThenable, hth, noQueryThenTargets_cons,
          noQueryThenTargets_append, actionThenTarget, traceExit_targets_not_query]

/-- The final emit of `trace.exit` for a non-thenable settlement with a
forced un-awaited detail: exactly one exit event, carrying the settled
value and `unawaited = true`. -/
lemma traceExit_nonthenable_unawaited (ctx : TraceCtx) (mf file : Option String)
    (line : Option Int) (v er : Option RVal)
    (hth : isThenable v = false) :
    ∃ ex, (traceExit ctx mf file line
        { returnValue := v, threw := false, error := er, unawaited := true }).2 =
      [RtAction.emitted ex] ∧
      ex.phase = "exit" ∧ ex.returnValue = v ∧ ex.threw = false ∧
      ex.unawaited = true := by
  simp only [traceExit, hth]
  exact ⟨_, rfl, rfl, rfl, rfl, by simp [mkExitEvent]⟩

/-- C7: the tracer never forces the resolution of a value it recognises as
a database query builder: neither the span engine's exit path
(`trace.exit`) nor the dispatcher (`__repro_call`) ever invokes the
builder's `then` — attaches a continuation directly to it — whatever a
traced call returns; every `.then` target is a value on which
`isMongooseQuery` is false. -/
theorem C7_never_forces_query_builder :
    (∀ (ctx : TraceCtx) (mf file : Option String) (line : Option Int)
       (d : ExitDetail),
      noQueryThenTargets (traceExit ctx mf file line d).2 = true) ∧
    (∀ (store : Option TraceCtx) (callable skipWrap bodyTraced : Bool)
       (fnName : String) (srcFile callFile : Option String)
       (callLine : Option Int) (label : Option String) (u : Bool)
       (o : CallOutcome),
      noQueryThenTargets (reproCallModel store callable skipWrap bodyTraced
        fnName srcFile callFile callLine label u o).1 = true) := by
  refine ⟨traceExit_targets_not_query, ?_⟩
  intro store callable skipWrap bodyTraced fnName srcFile callFile callLine label u o
  by_cases hdir : (!callable || skipWrap) = true
  · simp [reproCallModel, hdir, noQueryThenTargets]
  · rw [Bool.not_eq_true] at hdir
    cases store with
    | none =>
      cases o with
      | ret v =>
        by_cases hm : (u && isThenable v) = true
        · cases v with
          | none => simp [reproCallModel, hdir, hm, noQueryThenTargets,
              markPromiseValue, actionThenTarget] at *
          | some w =>
            simp [reproCallModel, hdir, hm, noQueryThenTargets, markPromiseValue,
              actionThenTarget]
        · rw [Bool.not_eq_true] at hm
          simp [reproCallModel, hdir, hm, noQueryThenTargets]
      | thrown e => simp [reproCallModel, hdir, noQueryThenTargets]
    | some c =>
      by_cases hbt : bodyTraced = true
      · cases o with
        | ret v =>
          by_cases hm : (u && isThenable v) = true
          · cases v with
            | none => simp [reproCallModel, hdir, hbt, hm, noQueryThenTargets,
                markPromiseValue, actionThenTarget] at *
            | some w =>
              simp [reproCallModel, hdir, hbt, hm, noQueryThenTargets,
                markPromiseValue, actionThenTarget]
          · rw [Bool.not_eq_true] at hm
            simp [reproCallModel, hdir, hbt, hm, noQueryThenTargets]
        | thrown e => simp [reproCallModel, hdir, hbt, noQueryThenTargets]
      · rw [Bool.not_eq_true] at hbt
        rcases hinv : invokeWithTraceModel
            { traceId := c.traceId
              depth := c.depth
              spanStack := c.spanStack
              frameUnawaited := []
              pendingUnawaited := []
              spanCounter := c.spanCounter }
            (dispatchName label fnName) (metaFile srcFile callFile)
            (metaLine srcFile callLine)
            (((List.head? c.spanStack).map Span.id)) u o with ⟨c2, acts, res⟩
        have hacts := invokeWithTrace_targets_not_query
          { traceId := c.traceId
            depth := c.depth
            spanStack := c.spanStack
            frameUnawaited := []
            pendingUnawaited := []
            spanCounter := c.spanCounter }
          (dispatchName label fnName) (metaFile srcFile callFile)
          (metaLine srcFile callLine)
          (((List.head? c.spanStack).map Span.id)) u o
        rw [hinv] at hacts
        cases res with
        | ok v => simp [reproCallModel, hdir, hbt, hinv]; exact hacts
        | error e => simp [reproCallModel, hdir, hbt, hinv]; exact hacts

/-- C3: a function that throws synchronously, invoked through the
dispatcher with an active scope, propagates its exception to the
dispatcher's caller, and the dispatcher emits exactly an enter followed by
an exit for the throwing frame carrying `threw = true` and the thrown
value as `error`. -/
theorem C3_sync_throw_propagates (c : TraceCtx) (e : RVal) (fnName : String)
    (srcFile callFile : Option String) (callLine : Option Int)
    (label : Option String) (u : Bool) :
    (reproCallModel (some c) true false false fnName srcFile callFile callLine
        label u (.thrown e)).2 = .error e ∧
    ∃ en ex,
      (reproCallModel (some c) true false false fnName srcFile callFile callLine
          label u (.thrown e)).1 = [RtAction.emitted en, RtAction.emitted ex] ∧
      en.phase = "enter" ∧ en.fn = some (dispatchName label fnName) ∧
      ex.phase = "exit" ∧ ex.fn = some (dispatchName label fnName) ∧
      ex.threw = true ∧ ex.error = some e := by
  cases u with
  | false =>
    exact ⟨rfl, _, _, rfl, rfl, rfl, rfl, rfl, rfl, rfl⟩
  | true =>
    exact ⟨rfl, _, _, rfl, rfl, rfl, rfl, rfl, rfl, rfl⟩

/-- C5 (counterexample): a dispatched call with `unawaited = true`
returning a plain thenable emits no exit record synchronously during
dispatch — only the enter is emitted and a continuation is attached to the
returned promise — refuting the claim that an `unawaited = true` exit is
emitted as soon as the callee's body is scheduled. -/
theorem C5_counterexample :
    (((reproCallModel (some ⟨some "t", 0, [], [], [], 0⟩) true false false "f"
        none (some "app.js") (some 3) (some "f") true
        (.ret (some (.mk true false false false false false none none
          false)))).1.filter actionIsEmittedExit).length = 0) ∧
    (((reproCallModel (some ⟨some "t", 0, [], [], [], 0⟩) true false false "f"
        none (some "app.js") (some 3) (some "f") true
        (.ret (some (.mk true false false false false false none none
          false)))).1.filter actionIsEmitted).length = 1) := by
  constructor
  · decide
  · decide

/-- C5 (amended): for a dispatched call with `unawaited = true` whose
return value is a plain thenable (not a query builder), the dispatcher
emits no exit synchronously; it marks the promise un-awaited, attaches a
continuation to it, and the exit record — carrying `unawaited = true` and
the settlement value — is emitted only when the thenable settles. -/
theorem C5_amended_exit_deferred_to_settlement (ctx : TraceCtx) (rv : RVal)
    (name : String) (file : Option String) (line : Option Int) (fp : Option Nat)
    (hthen : rv.thenable = true) (hq : isMongooseQuery (some rv) = false) :
    ((invokeWithTraceModel ctx name file line fp true (.ret (some rv))).2.1.filter
        actionIsEmittedExit).length = 0 ∧
    (invokeWithTraceModel ctx name file line fp true (.ret (some rv))).2.2 =
      .ok (some rv.markUnawaited) ∧
    ∃ ic,
      RtAction.invokeThenAttached rv.markUnawaited ic ∈
        (invokeWithTraceModel ctx name file line fp true (.ret (some rv))).2.1 ∧
      ic.shouldForceExit = true ∧
      ∀ v : Option RVal, isThenable v = false →
        ∃ ex, (invokeFinEmit ic v false none).2 = [RtAction.emitted ex] ∧
          ex.phase = "exit" ∧ ex.returnValue = v ∧ ex.threw = false ∧
          ex.unawaited = true := by
  have hacts : (invokeWithTraceModel ctx name file line fp true
      (.ret (some rv))).2.1 =
      [RtAction.emitted ((traceEnter
          { ctx with pendingUnawaited := ctx.pendingUnawaited ++ [true] }
          name file line fp).2),
       RtAction.promiseMarkedUnawaited rv.markUnawaited,
       RtAction.invokeThenAttached rv.markUnawaited
         { name := name
           file := file
           line := line
           shouldForceExit := true
           exitCtx := forkForUnawaited ((traceEnter
             { ctx with pendingUnawaited := ctx.pendingUnawaited ++ [true] }
             name file line fp).1) }] := by
    simp [invokeWithTraceModel, isThenable, hthen, hq, markPromiseValue]
  refine ⟨?_, ?_, ?_⟩
  · rw [hacts]
    simp [actionIsEmittedExit, traceEnter, pushSpan]
  · simp [invokeWithTraceModel, isThenable, hthen, hq, markPromiseValue]
  · refine ⟨{ name := name
              file := file
              line := line
              shouldForceExit := true
              exitCtx := forkForUnawaited ((traceEnter
                { ctx with pendingUnawaited := ctx.pendingUnawaited ++ [true] }
                name file line fp).1) }, ?_, rfl, ?_⟩
    · rw [hacts]
      simp
    · intro v hv
      exact traceExit_nonthenable_unawaited _ (some name) file line v none hv

/-- C4 (counterexample): when a traced call returns a thenable recognised
as a query builder (no exec result yet), the dispatcher enqueues a
finalizer but emits no exit at all synchronously — refuting the claim that
an exit carrying the builder as return value is emitted immediately
alongside the enqueued finalizer. -/
theorem C4_counterexample :
    (((invokeWithTraceModel ⟨some "t", 0, [], [], [], 0⟩ "find" (some "app.js")
        (some 5) none false
        (.ret (some (.mk true true false false false false none none
          true)))).2.1.filter actionIsEmittedExit).length = 0) ∧
    (((invokeWithTraceModel ⟨some "t", 0, [], [], [], 0⟩ "find" (some "app.js")
        (some 5) none false
        (.ret (some (.mk true true false false false false none none
          true)))).2.1.filter actionIsEmitted).length = 1) := by
  constructor
  · decide
  · decide

/-- C4 (amended): when a traced call returns a thenable recognised as a
query builder that has no exec result promise and no stored result yet,
the tracer enqueues a finalizer on the query object and emits no exit
synchronously (the builder itself is returned unchanged); when the
patched `exec`'s promise later resolves, the finalizer queue is drained
and the deferred exit — the only one — is emitted carrying the resolved
value. -/
theorem C4_amended_finalizer_deferred_exit (ctx : TraceCtx) (rv : RVal)
    (name : String) (file : Option String) (line : Option Int) (fp : Option Nat)
    (hq : isMongooseQuery (some rv) = true)
    (hrp : rv.resultPromise = none) (hsr : rv.storedResult = none)
    (hfin : rv.finalizable = true) :
    (invokeWithTraceModel ctx name file line fp false (.ret (some rv))).2.2 =
      .ok (some rv) ∧
    ((invokeWithTraceModel ctx name file line fp false (.ret (some rv))).2.1.filter
        actionIsEmittedExit).length = 0 ∧
    ∃ en fc,
      (invokeWithTraceModel ctx name file line fp false (.ret (some rv))).2.1 =
        [RtAction.emitted en, RtAction.finalizerQueued rv fc] ∧
      en.phase = "enter" ∧
      ∀ v : RVal, ∃ ex, execResolutionEvents [fc] (some v) = [ex] ∧
        ex.phase = "exit" ∧ ex.returnValue = some v ∧ ex.threw = false := by
  have hthen : rv.thenable = true := query_thenable hq
  obtain ⟨fc, hacts⟩ : ∃ fc,
      (invokeWithTraceModel ctx name file line fp false (.ret (some rv))).2.1 =
      [RtAction.emitted ((traceEnter ctx name file line fp).2),
       RtAction.finalizerQueued rv fc] :=
    ⟨_, by simp [invokeWithTraceModel, isThenable, hthen, hq, traceExit,
      attachTargetOf, hrp, hsr, hfin] <;> rfl⟩
  refine ⟨?_, ?_, ?_⟩
  · simp [invokeWithTraceModel, isThenable, hthen, hq]
  · rw [hacts]
    simp [actionIsEmittedExit, traceEnter, pushSpan]
  · refine ⟨(traceEnter ctx name file line fp).2, fc, hacts, ?_, ?_⟩
    · simp [traceEnter, pushSpan]
    · intro v
      exact ⟨_, rfl, rfl, rfl, rfl⟩

/-- Witness for `C5_amended_exit_deferred_to_settlement` at a concrete
scope and a concrete plain thenable. -/
theorem C5_amended_witness :
    ((invokeWithTraceModel ⟨some "t", 0, [], [], [], 0⟩ "f" (some "app.js")
        (some 3) none true
        (.ret (some (.mk true false false false false false none none
          false)))).2.1.filter actionIsEmittedExit).length = 0 ∧
    (invokeWithTraceModel ⟨some "t", 0, [], [], [], 0⟩ "f" (some "app.js")
        (some 3) none true
        (.ret (some (.mk true false false false false false none none
          false)))).2.2 =
      .ok (some (RVal.markUnawaited
        (.mk true false false false false false none none false))) ∧
    ∃ ic,
      RtAction.invokeThenAttached
          (RVal.markUnawaited
            (.mk true false false false false false none none false)) ic ∈
        (invokeWithTraceModel ⟨some "t", 0, [], [], [], 0⟩ "f" (some "app.js")
          (some 3) none true
          (.ret (some (.mk true false false false false false none none
            false)))).2.1 ∧
      ic.shouldForceExit = true ∧
      ∀ v : Option RVal, isThenable v = false →
        ∃ ex, (invokeFinEmit ic v false none).2 = [RtAction.emitted ex] ∧
          ex.phase = "exit" ∧ ex.returnValue = v ∧ ex.threw = false ∧
          ex.unawaited = true :=
  C5_amended_exit_deferred_to_settlement ⟨some "t", 0, [], [], [], 0⟩
    (.mk true false false false false false none none false) "f"
    (some "app.js") (some 3) none (by decide) (by decide)

/-- Witness for `C4_amended_finalizer_deferred_exit` at a concrete scope
and a concrete fresh query builder. -/
theorem C4_amended_witness :
    (invokeWithTraceModel ⟨some "t", 0, [], [], [], 0⟩ "find" (some "app.js")
        (some 5) none false
        (.ret (some (.mk true true false false false false none none
          true)))).2.2 =
      .ok (some (.mk true true false false false false none none true)) ∧
    ((invokeWithTraceModel ⟨some "t", 0, [], [], [], 0⟩ "find" (some "app.js")
        (some 5) none false
        (.ret (some (.mk true true false false false false none none
          true)))).2.1.filter actionIsEmittedExit).length = 0 ∧
    ∃ en fc,
      (invokeWithTraceModel ⟨some "t", 0, [], [], [], 0⟩ "find" (some "app.js")
          (some 5) none false
          (.ret (some (.mk true true false false false false none none
            true)))).2.1 =
        [RtAction.emitted en, RtAction.finalizerQueued
          (.mk true true false false false false none none true) fc] ∧
      en.phase = "enter" ∧
      ∀ v : RVal, ∃ ex, execResolutionEvents [fc] (some v) = [ex] ∧
        ex.phase = "exit" ∧ ex.returnValue = some v ∧ ex.threw = false :=
  C4_amended_finalizer_deferred_exit ⟨some "t", 0, [], [], [], 0⟩
    (.mk true true false false false false none none true) "find"
    (some "app.js") (some 5) none (by decide) rfl rfl (by decide)

/-- C6 (counterexample): the transformer passes no `unawaited` argument at
all.  A plain fire-and-forget call site — `notify(id)` as a statement, so
any awaited-position analysis would have to pass `true` — is rewritten
into a `__repro_call` invocation with exactly six arguments (fn temp,
null, argument array, file, line, label) and no boolean literal among
them, refuting the claim that the transformer passes an `unawaited`
argument reflecting the call's AST position. -/
theorem C6_counterexample :
    wrapCall
        { callee := CalleeShape.identC "notify"
          argCount := 1
          optionalCall := false
          internalMark := false
          alreadyWrapped := false
          line := 10 } "app.js" =
      .replaced [RewriteArg.tempFn, RewriteArg.nullLit, RewriteArg.arrayArgs 1,
        RewriteArg.strLit "app.js", RewriteArg.numLit 10,
        RewriteArg.strLit "notify"] ∧
    ([RewriteArg.tempFn, RewriteArg.nullLit, RewriteArg.arrayArgs 1,
      RewriteArg.strLit "app.js", RewriteArg.numLit 10,
      RewriteArg.strLit "notify"].length = 6 ∧
     [RewriteArg.tempFn, RewriteArg.nullLit, RewriteArg.arrayArgs 1,
      RewriteArg.strLit "app.js", RewriteArg.numLit 10,
      RewriteArg.strLit "notify"].all (fun a => !a.isBool) = true) := by
  refine ⟨?_, by decide, by decide⟩
  decide

/-- C6 (amended): for every call site the transformer rewrites, the
dispatcher is invoked with exactly six arguments — callee temp, this-arg
(or null), argument array, file, line, label — and no `unawaited`
argument (no boolean literal at all), so the dispatcher's `unawaited`
parameter is undefined (falsy) for every transformer-rewritten call,
whatever the call's AST position. -/
theorem C6_amended_no_unawaited_argument (n : CallNode) (file : String)
    (args : List RewriteArg) (h : wrapCall n file = .replaced args) :
    args.length = 6 ∧ ∀ a ∈ args, a.isBool = false := by
  obtain ⟨callee, argCount, opt, internal, wrapped, line⟩ := n
  cases wrapped with
  | true => cases h
  | false =>
  cases internal with
  | true => cases h
  | false =>
  cases opt with
  | true =>
    cases callee with
    | identC nm =>
      by_cases h1 : nm = "__repro_call"
      · rw [wrapCall] at h; simp [h1] at h
      · rw [wrapCall] at h; simp [h1] at h
    | memberC o p c => rw [wrapCall] at h; simp at h
    | superC => cases h
    | importC => cases h
    | otherC => rw [wrapCall] at h; simp at h
  | false =>
    cases callee with
    | identC nm =>
      by_cases h1 : nm = "__repro_call"
      · rw [wrapCall] at h; simp [h1] at h
      · by_cases h3 : nm = "__trace"
        · rw [wrapCall] at h; simp [h1, h3] at h
        · rw [wrapCall] at h
          simp [h1, h3] at h
          subst h
          exact ⟨rfl, by simp [RewriteArg.isBool]⟩
    | memberC o p c =>
      cases o with
      | true => rw [wrapCall] at h; simp at h
      | false =>
        rw [wrapCall] at h
        simp at h
        subst h
        exact ⟨rfl, by simp [RewriteArg.isBool]⟩
    | superC => cases h
    | importC => cases h
    | otherC =>
      rw [wrapCall] at h
      simp at h
      subst h
      exact ⟨rfl, by simp [RewriteArg.isBool]⟩

/-- Witness for `C6_amended_no_unawaited_argument` at a concrete member
call site. -/
theorem C6_amended_witness :
    [RewriteArg.tempFn, RewriteArg.tempObj, RewriteArg.arrayArgs 2,
      RewriteArg.strLit "svc.js", RewriteArg.numLit 4,
      RewriteArg.strLit "load"].length = 6 ∧
    ∀ a ∈ [RewriteArg.tempFn, RewriteArg.tempObj, RewriteArg.arrayArgs 2,
      RewriteArg.strLit "svc.js", RewriteArg.numLit 4,
      RewriteArg.strLit "load"], a.isBool = false :=
  C6_amended_no_unawaited_argument
    { callee := CalleeShape.memberC false (PropKey.identP "load") false
      argCount := 2
      optionalCall := false
      internalMark := false
      alreadyWrapped := false
      line := 4 } "svc.js" _ (by decide)

/-- C9: a request lacking the `x-bug-session-id` header or the
`x-bug-action-id` header passes through untouched: the middleware only
calls `next()` — no response-method patching, no tracer subscription, no
flush (so no payload is ever posted to the ingestion endpoint). -/
theorem C9_untagged_request_passthrough (req : MwRequest) (tracerActive : Bool)
    (h : headerValue req "x-bug-session-id" = none ∨
      headerValue req "x-bug-action-id" = none) :
    reproMiddlewareModel req tracerActive = passthroughEffects := by
  unfold reproMiddlewareModel
  rcases h with h | h
  · rw [if_pos]
    left
    rw [h]
    rfl
  · rw [if_pos]
    right
    rw [h]
    rfl

/-- Witness for `C9_untagged_request_passthrough`: a request with neither
header. -/
theorem C9_witness :
    reproMiddlewareModel
        { headers := [("content-type", "application/json")] } true =
      passthroughEffects :=
  C9_untagged_request_passthrough
    { headers := [("content-type", "application/json")] } true
    (Or.inl (by decide))

/-! ### Helper lemmas for the reordering correctness (C2): sorting -/

lemma insertByOrder_perm {α : Type} (key : α → Nat) (x : α) (l : List α) :
    List.Perm (insertByOrder key x l) (x :: l) := by
  induction l with
  | nil => simp [insertByOrder]
  | cons y ys ih =>
    by_cases h : key y ≤ key x
    · simp only [insertByOrder, if_pos h]
      exact (ih.cons y).trans (List.Perm.swap x y ys)
    · simp [insertByOrder, if_neg h]

lemma mem_insertByOrder {α : Type} (key : α → Nat) (x a : α) (l : List α) :
    a ∈ insertByOrder key x l ↔ a = x ∨ a ∈ l := by
  simpa using (insertByOrder_perm key x l).mem_iff

lemma sortByOrder_perm_aux {α : Type} (key : α → Nat) :
    ∀ (l acc : List α),
      List.Perm (l.foldl (fun a x => insertByOrder key x a) acc) (acc ++ l)
  | [], acc => by simp
  | x :: l, acc => by
    simp only [List.foldl_cons]
    refine (sortByOrder_perm_aux key l _).trans ?h
    have h1 := (insertByOrder_perm key x acc).append_right l
    exact h1.trans List.perm_middle.symm

lemma sortByOrder_perm {α : Type} (key : α → Nat) (l : List α) :
    List.Perm (sortByOrder key l) l := by
  simpa [sortByOrder] using sortByOrder_perm_aux key l []

lemma insertByOrder_sorted {α : Type} (key : α → Nat) (x : α) (l : List α)
    (h : l.Pairwise (fun a b => key a ≤ key b)) :
    (insertByOrder key x l).Pairwise (fun a b => key a ≤ key b) := by
  induction l with
  | nil => simp [insertByOrder]
  | cons y ys ih =>
    rcases List.pairwise_cons.mp h with ⟨hy, hys⟩
    by_cases hle : key y ≤ key x
    · simp only [insertByOrder, if_pos hle]
      refine List.pairwise_cons.mpr ⟨?h1, ih hys⟩
      intro b hb
      rcases (mem_insertByOrder key x b ys).mp hb with rfl | hb
      · exact hle
      · exact hy b hb
    · simp only [insertByOrder, if_neg hle]
      refine List.pairwise_cons.mpr ⟨?h2, h⟩
      intro b hb
      rcases List.mem_cons.mp hb with rfl | hb
      · omega
      · have := hy b hb
        omega

lemma sortByOrder_sorted_aux {α : Type} (key : α → Nat) :
    ∀ (l acc : List α), acc.Pairwise (fun a b => key a ≤ key b) →
      (l.foldl (fun a x => insertByOrder key x a) acc).Pairwise
        (fun a b => key a ≤ key b)
  | [], _, h => h
  | x :: l, acc, h => by
    simp only [List.foldl_cons]
    exact sortByOrder_sorted_aux key l _ (insertByOrder_sorted key x acc h)

lemma sortByOrder_sorted {α : Type} (key : α → Nat) (l : List α) :
    (sortByOrder key l).Pairwise (fun a b => key a ≤ key b) :=
  sortByOrder_sorted_aux key l [] (by simp)

lemma sorted_key_ext {α : Type} (key : α → Nat) :
    ∀ (l₁ l₂ : List α), l₁.Pairwise (fun a b => key a < key b) →
      l₂.Pairwise (fun a b => key a < key b) →
      (∀ x, x ∈ l₁ ↔ x ∈ l₂) → l₁ = l₂
  | [], [], _, _, _ => rfl
  | [], b :: l₂, _, _, hm =>
    absurd ((hm b).mpr (List.mem_cons_self b l₂)) (List.not_mem_nil b)
  | a :: l₁, [], _, _, hm =>
    absurd ((hm a).mp (List.mem_cons_self a l₁)) (List.not_mem_nil a)
  | a :: l₁, b :: l₂, h₁, h₂, hm => by
    rcases List.pairwise_cons.mp h₁ with ⟨ha, h₁t⟩
    rcases List.pairwise_cons.mp h₂ with ⟨hb, h₂t⟩
    have hab : a = b := by
      rcases List.mem_cons.mp ((hm a).mp (List.mem_cons_self a l₁)) with h | h
      · exact h
      · rcases List.mem_cons.mp ((hm b).mpr (List.mem_cons_self b l₂)) with h' | h'
        · exact h'.symm
        · have hba := hb a h
          have hab2 := ha b h'
          omega
    subst hab
    have htail : ∀ x, x ∈ l₁ ↔ x ∈ l₂ := by
      intro x
      constructor
      · intro hx
        rcases List.mem_cons.mp ((hm x).mp (List.mem_cons_of_mem a hx)) with rfl | h
        · have := ha x hx
          omega
        · exact h
      · intro hx
        rcases List.mem_cons.mp ((hm x).mpr (List.mem_cons_of_mem a hx)) with rfl | h
        · have := hb x hx
          omega
        · exact h
    rw [sorted_key_ext key l₁ l₂ h₁t h₂t htail]

/-! ### Helper lemmas for C2: event positions -/

lemma enumFrom_fst_lt {α : Type} (n : Nat) (l : List α) :
    (l.enumFrom n).Pairwise (fun p q => p.1 < q.1) := by
  induction l generalizing n with
  | nil => simp [List.enumFrom]
  | cons x xs ih =>
    simp only [List.enumFrom]
    refine List.pairwise_cons.mpr ⟨?h, ih (n + 1)⟩
    intro q hq
    have h1 := (List.mem_enumFrom hq).1
    simp only
    omega

lemma sidEventsIdx_fst_lt (events : List TraceEventRecord) (sid : String) :
    (sidEventsIdx events sid).Pairwise (fun p q => p.1 < q.1) :=
  List.Pairwise.sublist (List.filter_sublist _) (enumFrom_fst_lt 0 events)

lemma sidEventsIdx_mem (events : List TraceEventRecord) (sid : String)
    (p : Nat × TraceEventRecord) (hp : p ∈ sidEventsIdx events sid) :
    normSpan p.2.spanId = some sid := by
  have h1 := List.mem_filter.mp hp
  simpa using h1.2

lemma sidEventsIdx_get (events : List TraceEventRecord) (sid : String)
    (p : Nat × TraceEventRecord) (hp : p ∈ sidEventsIdx events sid) :
    ∃ h : p.1 < events.length, p.2 = events[p.1] := by
  have h1 := List.mem_filter.mp hp
  have h2 := List.mem_enumFrom h1.1
  rcases h2 with ⟨_, hlt, heq⟩
  simp only [Nat.zero_add, Nat.sub_zero] at hlt heq
  exact ⟨hlt, heq⟩

lemma firstIdx_eq (events : List TraceEventRecord) (sid : String) (i : Nat)
    (a : TraceEventRecord) (rest : List (Nat × TraceEventRecord))
    (h : sidEventsIdx events sid = (i, a) :: rest) : firstIdx events sid = i := by
  simp [firstIdx, h]

lemma firstIdx_inj (events : List TraceEventRecord) (s₁ s₂ : String)
    (h₁ : sidEventsIdx events s₁ ≠ []) (h₂ : sidEventsIdx events s₂ ≠ [])
    (h : firstIdx events s₁ = firstIdx events s₂) : s₁ = s₂ := by
  rcases hl₁ : sidEventsIdx events s₁ with _ | ⟨⟨i₁, a₁⟩, r₁⟩
  · exact absurd hl₁ h₁
  rcases hl₂ : sidEventsIdx events s₂ with _ | ⟨⟨i₂, a₂⟩, r₂⟩
  · exact absurd hl₂ h₂
  have e₁ := firstIdx_eq events s₁ i₁ a₁ r₁ hl₁
  have e₂ := firstIdx_eq events s₂ i₂ a₂ r₂ hl₂
  have hm₁ : (i₁, a₁) ∈ sidEventsIdx events s₁ := by
    rw [hl₁]
    exact List.mem_cons_self _ _
  have hm₂ : (i₂, a₂) ∈ sidEventsIdx events s₂ := by
    rw [hl₂]
    exact List.mem_cons_self _ _
  have hs₁ := sidEventsIdx_mem events s₁ _ hm₁
  have hs₂ := sidEventsIdx_mem events s₂ _ hm₂
  rcases sidEventsIdx_get events s₁ _ hm₁ with ⟨hlt₁, hg₁⟩
  rcases sidEventsIdx_get events s₂ _ hm₂ with ⟨hlt₂, hg₂⟩
  have hi : i₁ = i₂ := by omega
  subst hi
  have hae : a₁ = a₂ := by
    simp only at hg₁ hg₂
    rw [hg₁, hg₂]
  rw [hae] at hs₁
  rw [hs₁] at hs₂
  exact (Option.some.injEq _ _).mp hs₂

lemma sibsSorted_pairwise (events : List TraceEventRecord) :
    ∀ l : List String, sibsSortedB events l = true →
      l.Pairwise (fun a b => firstIdx events a < firstIdx events b)
  | [], _ => by simp
  | [a], _ => by simp
  | a :: b :: rest, h => by
    simp only [sibsSortedB, Bool.and_eq_true, decide_eq_true_eq] at h
    have ih := sibsSorted_pairwise events (b :: rest) h.2
    refine List.pairwise_cons.mpr ⟨?h1, ih⟩
    intro c hc
    rcases List.mem_cons.mp hc with rfl | hc
    · exact h.1
    · have := (List.pairwise_cons.mp ih).1 c hc
      omega

/-! ### Helper lemmas for C2: the node map -/

lemma lookupNode_cons (q : String × SpanNodeR) (l : List (String × SpanNodeR))
    (s : String) :
    lookupNode (q :: l) s = if q.1 = s then some q.2 else lookupNode l s := by
  by_cases h : q.1 = s
  · simp [lookupNode, List.find?_cons, h]
  · simp [lookupNode, List.find?_cons, h]

lemma lookupNode_none_iff (nodes : List (String × SpanNodeR)) (s : String) :
    lookupNode nodes s = none ↔ hasNodeKey nodes s = false := by
  induction nodes with
  | nil => simp [lookupNode, hasNodeKey]
  | cons p rest ih =>
    rw [lookupNode_cons]
    by_cases hp : p.1 = s
    · simp [hasNodeKey, hp]
    · rw [if_neg hp, ih]
      simp [hasNodeKey, List.any_cons, hp]

lemma hasNodeKey_iff_mem (nodes : List (String × SpanNodeR)) (s : String) :
    hasNodeKey nodes s = true ↔ s ∈ nodes.map Prod.fst := by
  simp only [hasNodeKey, List.any_eq_true, List.mem_map, decide_eq_true_eq]

lemma lookup_map_update (nodes : List (String × SpanNodeR)) (sid : String)
    (f : SpanNodeR → SpanNodeR) (s : String) :
    lookupNode (nodes.map (fun p => if p.1 = sid then (p.1, f p.2) else p)) s =
      if s = sid then (lookupNode nodes s).map f else lookupNode nodes s := by
  induction nodes with
  | nil => simp [lookupNode]
  | cons p rest ih =>
    simp only [List.map_cons]
    by_cases hpsid : p.1 = sid
    · rw [if_pos hpsid, lookupNode_cons, lookupNode_cons]
      by_cases hps : p.1 = s
      · have hs : s = sid := hps ▸ hpsid
        simp [hps, hs]
      · simp only [hps, if_neg hps, if_false]
        exact ih
    · rw [if_neg hpsid, lookupNode_cons, lookupNode_cons]
      by_cases hps : p.1 = s
      · have hs : ¬s = sid := by
          intro h
          exact hpsid (hps.trans h)
        simp [hps, hs]
      · simp only [hps, if_neg hps, if_false]
        exact ih

lemma lookupNode_append (l₁ l₂ : List (String × SpanNodeR)) (s : String) :
    lookupNode (l₁ ++ l₂) s =
      match lookupNode l₁ s with
      | some n => some n
      | none => lookupNode l₂ s := by
  induction l₁ with
  | nil => simp [lookupNode]
  | cons p rest ih =>
    rw [List.cons_append, lookupNode_cons, lookupNode_cons]
    by_cases hp : p.1 = s
    · simp [hp]
    · simp [hp, ih]

lemma applyEvent_lookup (nodes : List (String × SpanNodeR)) (idx : Nat)
    (ev : TraceEventRecord) (s : String) :
    lookupNode (applyEvent nodes idx ev) s =
      if normSpan ev.spanId = some s then
        match lookupNode nodes s with
        | none => some (freshNode idx ev)
        | some n => some (updateNode idx ev n)
      else lookupNode nodes s := by
  rcases hsp : normSpan ev.spanId with _ | sid
  · simp [applyEvent, hsp]
  · simp only [applyEvent, hsp]
    by_cases hk : hasNodeKey nodes sid = true
    · rw [if_pos hk, lookup_map_update]
      by_cases hs : s = sid
      · subst hs
        have hkk : ¬lookupNode nodes s = none := by
          rw [lookupNode_none_iff, hk]
          simp
        rcases hn : lookupNode nodes s with _ | n
        · exact absurd hn hkk
        · simp [hn]
      · have hns : ¬(some sid = some s) := fun h => hs (Option.some.inj h).symm
        simp [hs, hns]
    · rw [if_neg hk, lookupNode_append]
      have hkf : hasNodeKey nodes sid = false := by
        cases hkk : hasNodeKey nodes sid
        · rfl
        · exact absurd hkk hk
      by_cases hs : s = sid
      · subst hs
        have hnone : lookupNode nodes s = none := (lookupNode_none_iff nodes s).mpr hkf
        rw [hnone, lookupNode_cons]
        simp [lookupNode]
      · have hns : ¬(some sid = some s) := fun h => hs (Option.some.inj h).symm
        rw [if_neg hns]
        rcases hn : lookupNode nodes s with _ | n
        · rw [lookupNode_cons, if_neg (fun h => hs h.symm)]
          simp [lookupNode]
        · rfl

lemma buildNodesAux_lookup :
    ∀ (evs : List TraceEventRecord) (nodes : List (String × SpanNodeR))
      (idx : Nat) (s : String),
      lookupNode (buildNodesAux nodes idx evs) s =
        nodeFoldIdx (lookupNode nodes s)
          ((List.enumFrom idx evs).filter (fun p => normSpan p.2.spanId = some s))
  | [], nodes, idx, s => by simp [buildNodesAux, List.enumFrom, nodeFoldIdx]
  | ev :: evs, nodes, idx, s => by
    simp only [buildNodesAux, List.enumFrom, List.filter_cons]
    rw [buildNodesAux_lookup evs _ (idx + 1) s, applyEvent_lookup]
    by_cases h : normSpan ev.spanId = some s
    · simp only [h, if_pos rfl, decide_eq_true_eq, decide_eq_true h]
      rcases hl : lookupNode nodes s with _ | n
      · simp [nodeFoldIdx]
      · simp [nodeFoldIdx]
    · rw [if_neg h]
      simp [h]

lemma buildNodes_lookup (events : List TraceEventRecord) (s : String) :
    lookupNode (buildNodes events) s = nodeFoldIdx none (sidEventsIdx events s) := by
  have h := buildNodesAux_lookup events [] 0 s
  have hlk : lookupNode ([] : List (String × SpanNodeR)) s = none := rfl
  rw [hlk] at h
  exact h

lemma applyEvent_keys (nodes : List (String × SpanNodeR)) (idx : Nat)
    (ev : TraceEventRecord) :
    (applyEvent nodes idx ev).map Prod.fst = nodes.map Prod.fst ∨
      ∃ sid, hasNodeKey nodes sid = false ∧
        (applyEvent nodes idx ev).map Prod.fst = nodes.map Prod.fst ++ [sid] := by
  rcases hsp : normSpan ev.spanId with _ | sid
  · left
    simp [applyEvent, hsp]
  · simp only [applyEvent, hsp]
    by_cases hk : hasNodeKey nodes sid = true
    · left
      rw [if_pos hk, List.map_map]
      apply List.map_congr_left
      intro p _
      by_cases hp : p.1 = sid
      · simp [hp]
      · simp [hp]
    · right
      have hkf : hasNodeKey nodes sid = false := by
        cases hkk : hasNodeKey nodes sid
        · rfl
        · exact absurd hkk hk
      refine ⟨sid, hkf, ?h⟩
      rw [if_neg hk]
      simp

lemma buildNodesAux_keys_nodup :
    ∀ (evs : List TraceEventRecord) (nodes : List (String × SpanNodeR)) (idx : Nat),
      (nodes.map Prod.fst).Nodup → ((buildNodesAux nodes idx evs).map Prod.fst).Nodup
  | [], _, _, h => h
  | ev :: evs, nodes, idx, h => by
    apply buildNodesAux_keys_nodup evs _ (idx + 1)
    rcases applyEvent_keys nodes idx ev with heq | ⟨sid, hk, heq⟩
    · rw [heq]
      exact h
    · rw [heq]
      have hnot : sid ∉ nodes.map Prod.fst := by
        intro hmem
        rw [← hasNodeKey_iff_mem, hk] at hmem
        cases hmem
      simp [List.nodup_append, h, hnot]

lemma buildNodes_keys_nodup (events : List TraceEventRecord) :
    ((buildNodes events).map Prod.fst).Nodup :=
  buildNodesAux_keys_nodup events [] 0 (by simp)

lemma mem_lookupNode (nodes : List (String × SpanNodeR))
    (hnd : (nodes.map Prod.fst).Nodup) (q : String × SpanNodeR) (hq : q ∈ nodes) :
    lookupNode nodes q.1 = some q.2 := by
  induction nodes with
  | nil => cases hq
  | cons p rest ih =>
    rw [lookupNode_cons]
    have hnd2 : p.1 ∉ rest.map Prod.fst ∧ (rest.map Prod.fst).Nodup := by
      rw [List.map_cons, List.nodup_cons] at hnd
      exact hnd
    rcases List.mem_cons.mp hq with rfl | hq
    · simp
    · by_cases hp : p.1 = q.1
      · exfalso
        have hm : q.1 ∈ rest.map Prod.fst := List.mem_map_of_mem Prod.fst hq
        exact hnd2.1 (hp ▸ hm)
      · rw [if_neg hp]
        exact ih hnd2.2 hq

lemma lookupNode_mem (nodes : List (String × SpanNodeR)) (s : String)
    (n : SpanNodeR) (h : lookupNode nodes s = some n) : (s, n) ∈ nodes := by
  induction nodes with
  | nil => simp [lookupNode] at h
  | cons p rest ih =>
    rw [lookupNode_cons] at h
    by_cases hp : p.1 = s
    · rw [if_pos hp] at h
      have hn : n = p.2 := (Option.some.inj h).symm
      have hpe : (s, n) = p := by
        rw [← hp, hn]
      rw [hpe]
      exact List.mem_cons_self _ _
    · exact List.mem_cons_of_mem _ (ih (by rwa [if_neg hp] at h))

lemma nodeFoldIdx_some (l : List (Nat × TraceEventRecord)) (n : SpanNodeR) :
    ∃ m, nodeFoldIdx (some n) l = some m := by
  induction l generalizing n with
  | nil => exact ⟨n, rfl⟩
  | cons p rest ih => exact ih _

lemma nodeFoldIdx_none_iff (l : List (Nat × TraceEventRecord)) :
    nodeFoldIdx none l = none ↔ l = [] := by
  cases l with
  | nil => simp [nodeFoldIdx]
  | cons p rest =>
    simp only [nodeFoldIdx]
    rcases nodeFoldIdx_some rest (freshNode p.1 p.2) with ⟨m, hm⟩
    simp [hm]

/-! ### Helper lemmas for C2: the flattened forest -/

lemma headFlat_sid (p : Option String) (t : SpanTree) :
    (headFlat p t).sid = SpanTree.topSid t := by
  cases t
  rfl

lemma headFlat_parent (p : Option String) (t : SpanTree) :
    (headFlat p t).parent = p := by
  cases t
  rfl

lemma treeFlat_eq (p : Option String) (t : SpanTree) :
    ∃ cs, treeFlat p t = headFlat p t :: forestFlat (some (SpanTree.topSid t)) cs ∧
      (headFlat p t).kidSids = cs.map SpanTree.topSid := by
  cases t with
  | node s e x cs => exact ⟨cs, by simp [treeFlat, SpanTree.topSid], rfl⟩

lemma headFlat_mem_forestFlat (p : Option String) :
    ∀ (ts : List SpanTree) (t : SpanTree), t ∈ ts → headFlat p t ∈ forestFlat p ts
  | [], t, h => by cases h
  | t' :: ts, t, h => by
    rcases List.mem_cons.mp h with rfl | h
    · simp only [forestFlat]
      rcases treeFlat_eq p t with ⟨cs, heq, _⟩
      rw [heq]
      exact List.mem_append_left _ (List.mem_cons_self _ _)
    · simp only [forestFlat]
      exact List.mem_append_right _ (headFlat_mem_forestFlat p ts t h)

lemma treeFlat_sublist_forest :
    ∀ (ts : List SpanTree) (p : Option String) (t : SpanTree), t ∈ ts →
      List.Sublist (treeFlat p t) (forestFlat p ts)
  | [], _, t, h => by cases h
  | t' :: ts, p, t, h => by
    rcases List.mem_cons.mp h with rfl | h
    · simp only [forestFlat]
      exact List.sublist_append_left _ _
    · simp only [forestFlat]
      exact (treeFlat_sublist_forest ts p t h).trans (List.sublist_append_right _ _)

lemma forestOk_mem (events : List TraceEventRecord) (p : Option String)
    (ts : List SpanTree) (hts : forestOkB events p ts = true) :
    ∀ t ∈ ts, treeOkB events p t = true := by
  induction ts with
  | nil =>
    intro t ht
    cases ht
  | cons t2 ts ih =>
    simp only [forestOkB, Bool.and_eq_true] at hts
    intro t ht
    rcases List.mem_cons.mp ht with rfl | ht
    · exact hts.1
    · exact ih hts.2 t ht

lemma forestOk_flatOk (events : List TraceEventRecord) :
    ∀ (ts : List SpanTree) (p : Option String), forestOkB events p ts = true →
      ∀ fe ∈ forestFlat p ts, flatOk events fe
  | [], _, _, fe, hfe => by cases hfe
  | SpanTree.node s e x cs :: ts, p, h, fe, hfe => by
    simp only [forestOkB, Bool.and_eq_true] at h
    have htree := h.1
    simp only [treeOkB, Bool.and_eq_true, decide_eq_true_eq] at htree
    obtain ⟨⟨⟨⟨⟨⟨⟨⟨h1, h2⟩, h3⟩, h4⟩, h5⟩, h6⟩, h7⟩, h8⟩, h9⟩ := htree
    simp only [forestFlat, treeFlat, List.mem_append, List.mem_cons] at hfe
    rcases hfe with (rfl | hfe) | hfe
    · refine ⟨?a1, ?a2, ?a3, ?a4, ?a5, ?a6, ?a7, ?a8⟩
      · simpa [headFlat] using h1
      · simpa [headFlat] using h2
      · simpa [headFlat] using h3
      · simpa [headFlat] using h4
      · simpa [headFlat] using h5
      · simpa [headFlat] using h6
      · simpa [headFlat] using h7
      · simpa [headFlat] using h8
    · exact forestOk_flatOk events cs (some s) h9 fe hfe
    · exact forestOk_flatOk events ts p h.2 fe hfe
termination_by ts => sizeOf ts
decreasing_by
  all_goals (simp; try omega)

lemma forestFlat_parent :
    ∀ (ts : List SpanTree) (p : Option String) (fe : FlatNode), fe ∈ forestFlat p ts →
      (fe.parent = p ∧ fe.sid ∈ ts.map SpanTree.topSid) ∨
        ∃ fe2, fe2 ∈ forestFlat p ts ∧ fe.parent = some fe2.sid ∧ fe.sid ∈ fe2.kidSids
  | [], _, fe, h => by cases h
  | SpanTree.node s e x cs :: ts, p, fe, h => by
    simp only [forestFlat, treeFlat, List.mem_append, List.mem_cons] at h
    rcases h with (rfl | h) | h
    · left
      exact ⟨rfl, by simp [headFlat, SpanTree.topSid]⟩
    · rcases forestFlat_parent cs (some s) fe h with ⟨hp, hm⟩ | ⟨fe2, hm2, hp2, hk2⟩
      · right
        refine ⟨headFlat p (SpanTree.node s e x cs), ?hmem, ?hpar, ?hkid⟩
        · simp only [forestFlat, treeFlat]
          exact List.mem_append_left _ (List.mem_cons_self _ _)
        · simpa [headFlat] using hp
        · simpa [headFlat] using hm
      · right
        refine ⟨fe2, ?hmem2, hp2, hk2⟩
        simp only [forestFlat, treeFlat]
        exact List.mem_append_left _ (List.mem_cons_of_mem _ hm2)
    · rcases forestFlat_parent ts p fe h with ⟨hp, hm⟩ | ⟨fe2, hm2, hp2, hk2⟩
      · left
        refine ⟨hp, ?hm3⟩
        simp only [List.map_cons, List.mem_cons]
        exact Or.inr hm
      · right
        refine ⟨fe2, ?hmem4, hp2, hk2⟩
        simp only [forestFlat, treeFlat]
        exact List.mem_append_right _ hm2
termination_by ts => sizeOf ts
decreasing_by
  all_goals (simp; try omega)

lemma forestFlat_kid :
    ∀ (ts : List SpanTree) (p : Option String) (fe : FlatNode), fe ∈ forestFlat p ts →
      ∀ s2 ∈ fe.kidSids, ∃ fe2, fe2 ∈ forestFlat p ts ∧ fe2.sid = s2 ∧
        fe2.parent = some fe.sid
  | [], _, fe, h => by cases h
  | SpanTree.node s e x cs :: ts, p, fe, h => by
    intro s2 hs2
    simp only [forestFlat, treeFlat, List.mem_append, List.mem_cons] at h
    rcases h with (rfl | h) | h
    · have hs2m : s2 ∈ cs.map SpanTree.topSid := by
        simpa [headFlat] using hs2
      rcases List.mem_map.mp hs2m with ⟨c, hc, rfl⟩
      refine ⟨headFlat (some s) c, ?hm, headFlat_sid _ _, ?hp⟩
      · simp only [forestFlat, treeFlat]
        exact List.mem_append_left _
          (List.mem_cons_of_mem _ (headFlat_mem_forestFlat (some s) cs c hc))
      · rw [headFlat_parent]
        simp [headFlat]
    · rcases forestFlat_kid cs (some s) fe h s2 hs2 with ⟨fe2, hm, hsid, hp⟩
      refine ⟨fe2, ?hm2, hsid, hp⟩
      simp only [forestFlat, treeFlat]
      exact List.mem_append_left _ (List.mem_cons_of_mem _ hm)
    · rcases forestFlat_kid ts p fe h s2 hs2 with ⟨fe2, hm, hsid, hp⟩
      refine ⟨fe2, ?hm3, hsid, hp⟩
      simp only [forestFlat, treeFlat]
      exact List.mem_append_right _ hm
termination_by ts => sizeOf ts
decreasing_by
  all_goals (simp; try omega)

lemma topSid_sublist_flat :
    ∀ (ts : List SpanTree) (p : Option String),
      List.Sublist (ts.map SpanTree.topSid) ((forestFlat p ts).map FlatNode.sid)
  | [], _ => by simp
  | t :: ts, p => by
    simp only [forestFlat, List.map_cons, List.map_append]
    rcases treeFlat_eq p t with ⟨cs, heq, _⟩
    rw [heq]
    simp only [List.map_cons, headFlat_sid, List.cons_append]
    exact List.Sublist.cons₂ _
      ((topSid_sublist_flat ts p).trans (List.sublist_append_right _ _))

lemma heightF_le_flat_length :
    ∀ (ts : List SpanTree) (p : Option String),
      heightF ts ≤ (forestFlat p ts).length
  | [], p => by simp [heightF, forestFlat]
  | SpanTree.node s e x cs :: ts, p => by
    have h1 := heightF_le_flat_length cs (some s)
    have h2 := heightF_le_flat_length ts p
    simp only [heightF, heightT, forestFlat, treeFlat, List.length_append,
      List.length_cons]
    refine Nat.max_le.mpr ⟨?ha, ?hb⟩
    · omega
    · omega
termination_by ts => sizeOf ts
decreasing_by
  all_goals (simp; try omega)

/-! ### Helper lemmas for C2: what the node map stores per span -/

lemma spanPair_lookup (events : List TraceEventRecord) (sid : String)
    (e x : TraceEventRecord) (hpair : spanPairB events sid e x = true)
    (he : e.type = "enter") (hx : x.type = "exit") :
    ∃ n, nodeFoldIdx none (sidEventsIdx events sid) = some n ∧
      n.enter = some e ∧ n.exit = some x ∧
      (n.parentId = e.parentSpanId ∨ n.parentId = x.parentSpanId) ∧
      n.order = firstIdx events sid := by
  have hpair2 : (sidEventsIdx events sid).map Prod.snd = [e, x] ∨
      (sidEventsIdx events sid).map Prod.snd = [x, e] := by
    simpa [spanPairB] using hpair
  have hxe : ¬x.type = "enter" := by
    rw [hx]
    decide
  have hex : ¬e.type = "exit" := by
    rw [he]
    decide
  have hlt := sidEventsIdx_fst_lt events sid
  rcases hl : sidEventsIdx events sid with _ | ⟨⟨i, a⟩, rest⟩
  · rw [hl] at hpair2
    simp at hpair2
  rcases rest with _ | ⟨⟨j, b⟩, rest2⟩
  · rw [hl] at hpair2
    simp at hpair2
  rcases rest2 with _ | ⟨p3, rest3⟩
  · rw [hl] at hpair2 hlt
    have hij : i < j := by
      have := (List.pairwise_cons.mp hlt).1 (j, b) (List.mem_cons_self _ _)
      simpa using this
    have hfi : firstIdx events sid = i := firstIdx_eq events sid i a _ hl
    rcases hpair2 with hcase | hcase
    · simp only [List.map_cons, List.map_nil, List.cons.injEq, and_true] at hcase
      obtain ⟨rfl, rfl⟩ := hcase
      refine ⟨updateNode j b (freshNode i a), rfl, ?he2, ?hx2, ?hp2, ?ho2⟩
      · simp [updateNode, freshNode, he, hxe]
      · simp [updateNode, hx]
      · right
        simp [updateNode]
      · simp [updateNode, freshNode, hfi]
        omega
    · simp only [List.map_cons, List.map_nil, List.cons.injEq, and_true] at hcase
      obtain ⟨rfl, rfl⟩ := hcase
      refine ⟨updateNode j b (freshNode i a), rfl, ?he3, ?hx3, ?hp3, ?ho3⟩
      · simp [updateNode, freshNode, he, hxe]
      · simp [updateNode, freshNode, hex, hx]
      · left
        simp [updateNode]
      · simp [updateNode, freshNode, hfi]
        omega
  · rw [hl] at hpair2
    simp at hpair2

lemma flat_node_lookup (events : List TraceEventRecord) (fe : FlatNode)
    (hok : flatOk events fe) :
    ∃ n, lookupNode (buildNodes events) fe.sid = some n ∧ nodeMatches events fe n := by
  obtain ⟨h1, h2, h3, h4, h5, h6, h7, h8⟩ := hok
  rcases spanPair_lookup events fe.sid fe.enterEv fe.exitEv h7 h1 h2 with
    ⟨n, hfold, hen, hex, hpar, hord⟩
  refine ⟨n, ?hl, hen, hex, ?hp, hord⟩
  · rw [buildNodes_lookup]
    exact hfold
  · rcases hpar with hp | hp
    · rw [hp]
      exact h5
    · rw [hp]
      exact h6

lemma flatOk_occurs (events : List TraceEventRecord) (fe : FlatNode)
    (hok : flatOk events fe) : sidEventsIdx events fe.sid ≠ [] := by
  obtain ⟨_, _, _, _, _, _, h7, _⟩ := hok
  intro hnil
  rw [spanPairB, hnil] at h7
  simp at h7

lemma flatOk_hasKey (events : List TraceEventRecord) (fe : FlatNode)
    (hok : flatOk events fe) : hasNodeKey (buildNodes events) fe.sid = true := by
  rcases flat_node_lookup events fe hok with ⟨n, hl, _⟩
  cases hk : hasNodeKey (buildNodes events) fe.sid
  · have hnone := (lookupNode_none_iff (buildNodes events) fe.sid).mpr hk
    rw [hl] at hnone
    cases hnone
  · rfl

lemma formsB_split (events : List TraceEventRecord) (F : List SpanTree)
    (h : formsB events F = true) :
    (∀ ev ∈ events, (normSpan ev.spanId).isSome = true) ∧
    (∀ ev ∈ events, ∀ s, normSpan ev.spanId = some s → s ∈ forestSids F) ∧
    (forestSids F).Nodup ∧
    sibsSortedB events (F.map SpanTree.topSid) = true ∧
    forestOkB events none F = true := by
  simp only [formsB, Bool.and_eq_true, List.all_eq_true, decide_eq_true_eq] at h
  obtain ⟨⟨⟨⟨h1, h2⟩, h3⟩, h4⟩, h5⟩ := h
  refine ⟨h1, ?hc, h3, h4, h5⟩
  intro ev hev s hs
  have h2e := h2 ev hev
  rw [hs] at h2e
  simpa using h2e

lemma buildNodes_mem_char (events : List TraceEventRecord) (F : List SpanTree)
    (hforms : formsB events F = true) (q : String × SpanNodeR)
    (hq : q ∈ buildNodes events) :
    ∃ fe, fe ∈ forestFlat none F ∧ fe.sid = q.1 ∧ nodeMatches events fe q.2 := by
  obtain ⟨hall, hcov, hnd, hroots, hok⟩ := formsB_split events F hforms
  have hlk : lookupNode (buildNodes events) q.1 = some q.2 :=
    mem_lookupNode _ (buildNodes_keys_nodup events) q hq
  have hne : sidEventsIdx events q.1 ≠ [] := by
    intro hnil
    have hno : lookupNode (buildNodes events) q.1 = none := by
      rw [buildNodes_lookup, hnil]
      rfl
    rw [hlk] at hno
    cases hno
  rcases hl : sidEventsIdx events q.1 with _ | ⟨⟨i, a⟩, r⟩
  · exact absurd hl hne
  have hma : (i, a) ∈ sidEventsIdx events q.1 := by
    rw [hl]
    exact List.mem_cons_self _ _
  have hsa := sidEventsIdx_mem events q.1 _ hma
  rcases sidEventsIdx_get events q.1 _ hma with ⟨hltq, hga⟩
  have haev : a ∈ events := by
    simp only at hga
    rw [hga]
    exact List.getElem_mem hltq
  have hq1 : q.1 ∈ forestSids F := hcov a haev q.1 hsa
  rcases List.mem_map.mp (by simpa [forestSids] using hq1) with ⟨fe, hfe, hfesid⟩
  have hfok := forestOk_flatOk events F none hok fe hfe
  rcases flat_node_lookup events fe hfok with ⟨n, hln, hmatch⟩
  refine ⟨fe, hfe, hfesid, ?hm⟩
  rw [hfesid] at hln
  have hnq : n = q.2 := Option.some.inj (hln.symm.trans hlk)
  exact hnq ▸ hmatch

lemma flat_mem_nodes (events : List TraceEventRecord) (F : List SpanTree)
    (hforms : formsB events F = true) (fe : FlatNode)
    (hfe : fe ∈ forestFlat none F) :
    (fe.sid, nodeValOf events fe.sid) ∈ buildNodes events ∧
      nodeMatches events fe (nodeValOf events fe.sid) := by
  obtain ⟨hall, hcov, hnd, hroots, hok⟩ := formsB_split events F hforms
  have hfok := forestOk_flatOk events F none hok fe hfe
  rcases flat_node_lookup events fe hfok with ⟨n, hln, hmatch⟩
  have hval : nodeValOf events fe.sid = n := by
    rw [nodeValOf, hln]
    rfl
  refine ⟨?hm, hval ▸ hmatch⟩
  rw [hval]
  exact lookupNode_mem _ _ _ hln

lemma flat_sid_inj (F : List SpanTree) (hnd : (forestSids F).Nodup)
    (fe1 fe2 : FlatNode) (h1 : fe1 ∈ forestFlat none F)
    (h2 : fe2 ∈ forestFlat none F) (hs : fe1.sid = fe2.sid) : fe1 = fe2 :=
  List.inj_on_of_nodup_map (by simpa [forestSids] using hnd) h1 h2 hs

lemma nodes_order_firstIdx (events : List TraceEventRecord) (F : List SpanTree)
    (hforms : formsB events F = true) (q : String × SpanNodeR)
    (hq : q ∈ buildNodes events) :
    q.2.order = firstIdx events q.1 ∧ sidEventsIdx events q.1 ≠ [] := by
  rcases buildNodes_mem_char events F hforms q hq with ⟨fe, hfe, hfesid, hmatch⟩
  obtain ⟨hall, hcov, hnd, hroots, hok⟩ := formsB_split events F hforms
  constructor
  · rw [hmatch.2.2.2, hfesid]
  · rw [← hfesid]
    exact flatOk_occurs events fe (forestOk_flatOk events F none hok fe hfe)

lemma childrenOf_char (events : List TraceEventRecord) (F : List SpanTree)
    (hforms : formsB events F = true) (fe : FlatNode)
    (hfe : fe ∈ forestFlat none F) (q : String × SpanNodeR) :
    q ∈ childrenOf (buildNodes events) fe.sid ↔
      ∃ s2 ∈ fe.kidSids, q = (s2, nodeValOf events s2) := by
  obtain ⟨hall, hcov, hnd, hroots, hok⟩ := formsB_split events F hforms
  constructor
  · intro hq
    rw [childrenOf, List.mem_filter] at hq
    obtain ⟨hqn, hpred⟩ := hq
    rcases buildNodes_mem_char events F hforms q hqn with ⟨feq, hfeq, hfesid, hmatch⟩
    rcases hpp : normSpan q.2.parentId with _ | p2
    · rw [hpp] at hpred
      simp at hpred
    · rw [hpp] at hpred
      simp only [Bool.and_eq_true, decide_eq_true_eq] at hpred
      have hp2 : p2 = fe.sid := hpred.1
      have hfp : feq.parent = some fe.sid := by
        rw [← hmatch.2.2.1, hpp, hp2]
      rcases forestFlat_parent F none feq hfeq with ⟨hpn, _⟩ | ⟨fe2, hm2, hpar2, hk2⟩
      · rw [hpn] at hfp
        cases hfp
      · have hfe2 : fe2 = fe := by
          apply flat_sid_inj F hnd fe2 fe hm2 hfe
          exact Option.some.inj (hpar2.symm.trans hfp)
        have hlk : lookupNode (buildNodes events) q.1 = some q.2 :=
          mem_lookupNode _ (buildNodes_keys_nodup events) q hqn
        have hv : nodeValOf events q.1 = q.2 := by
          rw [nodeValOf, hlk]
          rfl
        refine ⟨q.1, ?hks, ?hqe⟩
        · rw [← hfesid]
          exact hfe2 ▸ hk2
        · rw [hv]
  · rintro ⟨s2, hs2, rfl⟩
    rcases forestFlat_kid F none fe hfe s2 hs2 with ⟨fe2, hm2, hsid2, hp2⟩
    have h2 := flat_mem_nodes events F hforms fe2 hm2
    rw [childrenOf, List.mem_filter]
    constructor
    · rw [← hsid2]
      exact h2.1
    · have hpp : normSpan (nodeValOf events fe2.sid).parentId = some fe.sid := by
        rw [h2.2.2.2.1, hp2]
      rw [← hsid2]
      simp only [hpp]
      simp [flatOk_hasKey events fe (forestOk_flatOk events F none hok fe hfe)]

lemma children_sorted_eq (events : List TraceEventRecord) (F : List SpanTree)
    (hforms : formsB events F = true) (fe : FlatNode)
    (hfe : fe ∈ forestFlat none F) :
    sortByOrder (fun p => p.2.order) (childrenOf (buildNodes events) fe.sid) =
      fe.kidSids.map (fun s => (s, nodeValOf events s)) := by
  obtain ⟨hall, hcov, hnd, hroots, hok⟩ := formsB_split events F hforms
  have hfok := forestOk_flatOk events F none hok fe hfe
  have hperm := sortByOrder_perm (fun p : String × SpanNodeR => p.2.order)
    (childrenOf (buildNodes events) fe.sid)
  apply sorted_key_ext (fun p : String × SpanNodeR => p.2.order)
  · have hle := sortByOrder_sorted (fun p : String × SpanNodeR => p.2.order)
      (childrenOf (buildNodes events) fe.sid)
    have hndk : ((childrenOf (buildNodes events) fe.sid).map Prod.fst).Nodup :=
      (buildNodes_keys_nodup events).sublist
        ((List.filter_sublist _).map Prod.fst)
    have hpk : (childrenOf (buildNodes events) fe.sid).Pairwise
        (fun p q2 => p.1 ≠ q2.1) := List.pairwise_map.mp hndk
    have hpo : (childrenOf (buildNodes events) fe.sid).Pairwise
        (fun p q2 => p.2.order ≠ q2.2.order) := by
      refine hpk.imp_of_mem ?himp
      intro p q2 hp hq2 hne
      have hp2 : p ∈ buildNodes events := (List.mem_filter.mp hp).1
      have hq2n : q2 ∈ buildNodes events := (List.mem_filter.mp hq2).1
      obtain ⟨hpo1, hpo2⟩ := nodes_order_firstIdx events F hforms p hp2
      obtain ⟨hqo1, hqo2⟩ := nodes_order_firstIdx events F hforms q2 hq2n
      rw [hpo1, hqo1]
      intro heq
      exact hne (firstIdx_inj events p.1 q2.1 hpo2 hqo2 heq)
    have hpos := (hperm.pairwise_iff (fun {_ _} h => Ne.symm h)).mpr hpo
    exact (hle.and hpos).imp (fun h => lt_of_le_of_ne h.1 h.2)
  · have hsibs : sibsSortedB events fe.kidSids = true := hfok.2.2.2.2.2.2.2
    have hpw := sibsSorted_pairwise events fe.kidSids hsibs
    refine List.pairwise_map.mpr ?hr
    refine hpw.imp_of_mem ?himp2
    intro s1 s2 hs1 hs2 hlt12
    rcases forestFlat_kid F none fe hfe s1 hs1 with ⟨fe1, hm1, hsid1, _⟩
    rcases forestFlat_kid F none fe hfe s2 hs2 with ⟨fe2, hm2, hsid2, _⟩
    have h1 := (flat_mem_nodes events F hforms fe1 hm1).2
    have h2 := (flat_mem_nodes events F hforms fe2 hm2).2
    have ho1 : (nodeValOf events fe1.sid).order = firstIdx events fe1.sid :=
      h1.2.2.2
    have ho2 : (nodeValOf events fe2.sid).order = firstIdx events fe2.sid :=
      h2.2.2.2
    simp only
    rw [← hsid1, ← hsid2, ho1, ho2, hsid1, hsid2]
    exact hlt12
  · intro q
    rw [hperm.mem_iff, childrenOf_char events F hforms fe hfe q, List.mem_map]
    constructor
    · rintro ⟨s2, hs2, rfl⟩
      exact ⟨s2, hs2, rfl⟩
    · rintro ⟨s2, hs2, rfl⟩
      exact ⟨s2, hs2, rfl⟩

/-! ### Helper lemmas for C2: the roots array -/

lemma evRootEntries_nil (events : List TraceEventRecord)
    (hall : ∀ ev ∈ events, (normSpan ev.spanId).isSome = true) :
    evRootEntries events = [] := by
  rw [evRootEntries, List.filter_eq_nil_iff]
  intro p hp
  have h2 := List.mem_enumFrom hp
  rcases h2 with ⟨_, hlt, heq⟩
  simp only [Nat.zero_add, Nat.sub_zero] at hlt heq
  have hsnd : p.2 ∈ events := by
    rw [heq]
    exact List.getElem_mem hlt
  have hso := hall p.2 hsnd
  rcases Option.isSome_iff_exists.mp hso with ⟨v, hv⟩
  simp [hv]

lemma rootEntries_eq (events : List TraceEventRecord)
    (hall : ∀ ev ∈ events, (normSpan ev.spanId).isSome = true)
    (nodes : List (String × SpanNodeR)) :
    rootEntries events nodes =
      (nodes.filter (fun p => isRootNode nodes p.2)).map
        (fun p => RootEntry.spanRoot p.2.order p.1 p.2) := by
  rw [rootEntries, evRootEntries_nil events hall]
  rw [List.map_nil, List.nil_append]

lemma rootFilter_char (events : List TraceEventRecord) (F : List SpanTree)
    (hforms : formsB events F = true) (q : String × SpanNodeR) :
    q ∈ (buildNodes events).filter
        (fun p => isRootNode (buildNodes events) p.2) ↔
      ∃ t ∈ F, q = (SpanTree.topSid t, nodeValOf events (SpanTree.topSid t)) := by
  obtain ⟨hall, hcov, hnd, hroots, hok⟩ := formsB_split events F hforms
  constructor
  · intro hq
    rw [List.mem_filter] at hq
    obtain ⟨hqn, hroot⟩ := hq
    rcases buildNodes_mem_char events F hforms q hqn with ⟨feq, hfeq, hfesid, hmatch⟩
    rcases forestFlat_parent F none feq hfeq with ⟨hpn, hmem⟩ | ⟨fe2, hm2, hpar2, hk2⟩
    · rcases List.mem_map.mp hmem with ⟨t, ht, hts⟩
      refine ⟨t, ht, ?hq⟩
      have hlk : lookupNode (buildNodes events) q.1 = some q.2 :=
        mem_lookupNode _ (buildNodes_keys_nodup events) q hqn
      have hv : nodeValOf events q.1 = q.2 := by
        rw [nodeValOf, hlk]
        rfl
      rw [hts, hfesid, hv]
    · exfalso
      have hpp : normSpan q.2.parentId = some fe2.sid := by
        rw [hmatch.2.2.1, hpar2]
      have hkk : hasNodeKey (buildNodes events) fe2.sid = true :=
        flatOk_hasKey events fe2 (forestOk_flatOk events F none hok fe2 hm2)
      rw [isRootNode, hpp] at hroot
      simp [hkk] at hroot
  · rintro ⟨t, ht, rfl⟩
    have hhm := headFlat_mem_forestFlat none F t ht
    have h2 := flat_mem_nodes events F hforms (headFlat none t) hhm
    rw [List.mem_filter]
    constructor
    · rw [← headFlat_sid none t]
      exact h2.1
    · have hpp : normSpan (nodeValOf events (headFlat none t).sid).parentId
          = none := by
        rw [h2.2.2.2.1, headFlat_parent]
      rw [← headFlat_sid none t]
      simp [isRootNode, hpp]

lemma roots_sorted_eq (events : List TraceEventRecord) (F : List SpanTree)
    (hforms : formsB events F = true) :
    sortByOrder rootOrder (rootEntries events (buildNodes events)) =
      F.map (fun t => RootEntry.spanRoot (firstIdx events (SpanTree.topSid t))
        (SpanTree.topSid t) (nodeValOf events (SpanTree.topSid t))) := by
  obtain ⟨hall, hcov, hnd, hroots, hok⟩ := formsB_split events F hforms
  rw [rootEntries_eq events hall]
  have hperm := sortByOrder_perm rootOrder
    (((buildNodes events).filter (fun p => isRootNode (buildNodes events) p.2)).map
      (fun p => RootEntry.spanRoot p.2.order p.1 p.2))
  apply sorted_key_ext rootOrder
  · have hle := sortByOrder_sorted rootOrder
      (((buildNodes events).filter
        (fun p => isRootNode (buildNodes events) p.2)).map
        (fun p => RootEntry.spanRoot p.2.order p.1 p.2))
    have hndk : (((buildNodes events).filter
        (fun p => isRootNode (buildNodes events) p.2)).map Prod.fst).Nodup :=
      (buildNodes_keys_nodup events).sublist
        ((List.filter_sublist _).map Prod.fst)
    have hpk : ((buildNodes events).filter
        (fun p => isRootNode (buildNodes events) p.2)).Pairwise
        (fun p q2 => p.1 ≠ q2.1) := List.pairwise_map.mp hndk
    have hpm : (((buildNodes events).filter
        (fun p => isRootNode (buildNodes events) p.2)).map
        (fun p => RootEntry.spanRoot p.2.order p.1 p.2)).Pairwise
        (fun r1 r2 => rootOrder r1 ≠ rootOrder r2) := by
      refine List.pairwise_map.mpr ?hmp
      refine hpk.imp_of_mem ?hmp2
      intro p q2 hp hq2 hne
      have hp2 : p ∈ buildNodes events := (List.mem_filter.mp hp).1
      have hq2n : q2 ∈ buildNodes events := (List.mem_filter.mp hq2).1
      obtain ⟨hpo1, hpo2⟩ := nodes_order_firstIdx events F hforms p hp2
      obtain ⟨hqo1, hqo2⟩ := nodes_order_firstIdx events F hforms q2 hq2n
      simp only [rootOrder]
      rw [hpo1, hqo1]
      intro heq
      exact hne (firstIdx_inj events p.1 q2.1 hpo2 hqo2 heq)
    have hpos := (hperm.pairwise_iff (fun {_ _} h => Ne.symm h)).mpr hpm
    exact (hle.and hpos).imp (fun h => lt_of_le_of_ne h.1 h.2)
  · have hpw := sibsSorted_pairwise events _ hroots
    have hpw2 : F.Pairwise (fun t1 t2 =>
        firstIdx events (SpanTree.topSid t1) < firstIdx events (SpanTree.topSid t2)) :=
      List.Pairwise.of_map SpanTree.topSid (fun _ _ h => h) hpw
    refine List.pairwise_map.mpr ?hrr
    refine hpw2.imp ?hrr2
    intro t1 t2 h12
    simpa [rootOrder] using h12
  · intro r
    rw [hperm.mem_iff, List.mem_map, List.mem_map]
    constructor
    · rintro ⟨q, hq, rfl⟩
      rcases (rootFilter_char events F hforms q).mp hq with ⟨t, ht, rfl⟩
      have h2 := (flat_mem_nodes events F hforms (headFlat none t)
        (headFlat_mem_forestFlat none F t ht)).2
      have hord := h2.2.2.2
      rw [headFlat_sid] at hord
      exact ⟨t, ht, by rw [hord]⟩
    · rintro ⟨t, ht, rfl⟩
      refine ⟨(SpanTree.topSid t, nodeValOf events (SpanTree.topSid t)),
        (rootFilter_char events F hforms _).mpr ⟨t, ht, rfl⟩, ?hh⟩
      have h2 := (flat_mem_nodes events F hforms (headFlat none t)
        (headFlat_mem_forestFlat none F t ht)).2
      have hord := h2.2.2.2
      rw [headFlat_sid] at hord
      rw [hord]

/-! ### The emission lemma and claim C2 -/

mutual

theorem emitT_lin : ∀ (fuel : Nat) (events : List TraceEventRecord)
    (F : List SpanTree) (p : Option String) (t : SpanTree) (d : Nat),
    formsB events F = true →
    List.Sublist (treeFlat p t) (forestFlat none F) →
    treeOkB events p t = true →
    heightT t ≤ fuel →
    emitNodeF (buildNodes events) fuel (SpanTree.topSid t)
      (nodeValOf events (SpanTree.topSid t)) d = linTree d t
  | 0, _, _, _, SpanTree.node s e x cs, _, _, _, _, hh => by
    simp only [heightT] at hh
    exact absurd hh (by omega)
  | fuel + 1, events, F, p, SpanTree.node s e x cs, d, hforms, hsub, hok, hh => by
    have htf : treeFlat p (SpanTree.node s e x cs) =
        headFlat p (SpanTree.node s e x cs) :: forestFlat (some s) cs := by
      simp [treeFlat]
    have hfe : headFlat p (SpanTree.node s e x cs) ∈ forestFlat none F := by
      apply hsub.subset
      rw [htf]
      exact List.mem_cons_self _ _
    have h2 := flat_mem_nodes events F hforms _ hfe
    have hmatch := h2.2
    have hsid : (headFlat p (SpanTree.node s e x cs)).sid = s := by
      simp [headFlat]
    have hen : (nodeValOf events s).enter = some e := by
      have hm := hmatch.1
      rw [hsid] at hm
      simpa [headFlat] using hm
    have hexx : (nodeValOf events s).exit = some x := by
      have hm := hmatch.2.1
      rw [hsid] at hm
      simpa [headFlat] using hm
    have hcse := children_sorted_eq events F hforms _ hfe
    rw [hsid] at hcse
    have hkid : (headFlat p (SpanTree.node s e x cs)).kidSids
        = cs.map SpanTree.topSid := by
      simp [headFlat]
    rw [hkid] at hcse
    have hokt := hok
    simp only [treeOkB, Bool.and_eq_true] at hokt
    have hokcs : forestOkB events (some s) cs = true := hokt.2
    have hsubcs : List.Sublist (forestFlat (some s) cs) (forestFlat none F) := by
      refine List.Sublist.trans ?hsb hsub
      rw [htf]
      exact (List.Sublist.refl _).cons _
    have hhcs : heightF cs ≤ fuel := by
      simp only [heightT] at hh
      omega
    have hkids := emitF_lin fuel events F (some s) cs (d + 1) hforms hsubcs hokcs hhcs
    simp only [SpanTree.topSid, emitNodeF, hen, hexx, hcse, List.map_map,
      List.flatMap_map, linTree]
    simp only [Function.comp]
    rw [hkids]
    simp
termination_by fuel events F p t d => (fuel, sizeOf t)

theorem emitF_lin : ∀ (fuel : Nat) (events : List TraceEventRecord)
    (F : List SpanTree) (p : Option String) (ts : List SpanTree) (d : Nat),
    formsB events F = true →
    List.Sublist (forestFlat p ts) (forestFlat none F) →
    forestOkB events p ts = true →
    heightF ts ≤ fuel →
    ts.flatMap (fun c => emitNodeF (buildNodes events) fuel (SpanTree.topSid c)
      (nodeValOf events (SpanTree.topSid c)) d) = linForest d ts
  | _, _, _, _, [], _, _, _, _, _ => by simp [linForest]
  | fuel, events, F, p, t :: ts, d, hforms, hsub, hok, hh => by
    have hffeq : forestFlat p (t :: ts) = treeFlat p t ++ forestFlat p ts := by
      simp [forestFlat]
    have hsubt : List.Sublist (treeFlat p t) (forestFlat none F) := by
      refine List.Sublist.trans ?h1 hsub
      rw [hffeq]
      exact List.sublist_append_left _ _
    have hsubf : List.Sublist (forestFlat p ts) (forestFlat none F) := by
      refine List.Sublist.trans ?h2 hsub
      rw [hffeq]
      exact List.sublist_append_right _ _
    have hok2 := hok
    simp only [forestOkB, Bool.and_eq_true] at hok2
    have hht : heightT t ≤ fuel := by
      simp only [heightF] at hh
      exact le_trans (le_max_left _ _) hh
    have hhf : heightF ts ≤ fuel := by
      simp only [heightF] at hh
      exact le_trans (le_max_right _ _) hh
    rw [List.flatMap_cons,
      emitT_lin fuel events F p t d hforms hsubt hok2.1 hht,
      emitF_lin fuel events F p ts d hforms hsubf hok2.2 hhf]
    simp [linForest]
termination_by fuel events F p ts d => (fuel, sizeOf ts)

end

lemma formsB_nil_forest (F : List SpanTree) (h : formsB [] F = true) : F = [] := by
  obtain ⟨_, _, _, _, hok⟩ := formsB_split [] F h
  cases F with
  | nil => rfl
  | cons t ts =>
    exfalso
    have ht := forestOk_mem [] none (t :: ts) hok t (List.mem_cons_self _ _)
    cases t with
    | node s e x cs =>
      simp only [treeOkB, Bool.and_eq_true] at ht
      have hpair := ht.1.1.2
      rw [spanPairB] at hpair
      simp [sidEventsIdx] at hpair

/-- C2: on an event list whose spans form a tree by parent-span-id edges
(`formsB`), `reorderTraceEvents` emits exactly the depth-first linearization
of that tree — for each span its enter, then its children in first-emission
order, then its exit — with depths rewritten to the tree depth. -/
theorem C2_reorder_emits_dfs_linearization (events : List TraceEventRecord)
    (F : List SpanTree) (hforms : formsB events F = true) :
    reorderTraceEvents events = linForest 1 F := by
  by_cases hev : events = []
  · subst hev
    rw [formsB_nil_forest F hforms]
    simp [reorderTraceEvents, linForest]
  · obtain ⟨hall, hcov, hnd, hroots, hok⟩ := formsB_split events F hforms
    simp only [reorderTraceEvents, if_neg hev]
    rw [roots_sorted_eq events F hforms]
    rw [List.flatMap_map]
    have hlen : (forestSids F).length ≤ (buildNodes events).length := by
      have hss : forestSids F ⊆ (buildNodes events).map Prod.fst := by
        intro s2 hs2
        rcases List.mem_map.mp (by simpa [forestSids] using hs2) with ⟨fe, hfe, rfl⟩
        rw [← hasNodeKey_iff_mem]
        exact flatOk_hasKey events fe (forestOk_flatOk events F none hok fe hfe)
      have hle := (List.subperm_of_subset hnd hss).length_le
      simpa using hle
    have hfuel : heightF F ≤ (buildNodes events).length := by
      have hfl : (forestFlat none F).length = (forestSids F).length := by
        simp [forestSids]
      have hh := heightF_le_flat_length F none
      omega
    have hmain := emitF_lin (buildNodes events).length events F none F 1 hforms
      (List.Sublist.refl _) hok hfuel
    simp only [emitRoot]
    exact hmain



/-- Witness for C2 at the spec's concrete scenario: enter A, enter B (child
span), exit B arriving before exit A; the hypothesis holds and the output is
enter A, enter B, exit B, exit A with depths 1, 2, 2, 1. -/
theorem C2_witness :
    formsB c2Events c2Forest = true ∧
    reorderTraceEvents c2Events = linForest 1 c2Forest ∧
    linForest 1 c2Forest =
      [{ c2EnterA with depth := some 1 }, { c2EnterB with depth := some 2 },
        { c2ExitB with depth := some 2 }, { c2ExitA with depth := some 1 }] :=
  ⟨by decide, C2_reorder_emits_dfs_linearization c2Events c2Forest (by decide),
    by decide⟩

end ReproSdk
